import Mathlib

/-!
Verification of the Sparerpauschbetrag optimal-sales engine
(`scripts/determine_optimal_sales.py`).

The script reconstructs FIFO holdings from a per-security trade history
(`get_fifo_holdings`), then runs a bounded backtracking search (`_backtrack`,
driven by an iterative-deepening loop over the allowed trade count) for a
combination of partial-lot sales whose total taxable profit reaches a target,
refining the final trade (`refine_solution`) to hit the target exactly.

Modelling choices (shallow embedding):
* Python floats become `ℚ` (exact arithmetic).
* The Python dicts used as records become structures; the per-security dicts
  (`data`, `fifo_holdings`, `current_prices`, `teilfreistellung`) become
  association lists (iteration follows insertion order exactly as Python
  dictionaries do) or plain functions where they are only ever read pointwise.
* `get_fifo_holdings` mutates its input: the open lots it returns are the very
  buy-trade dicts of the input (`fifo_holdings[symbol].append(trade)`), and a
  sell event decrements its own `amount` while consuming lots.  We model this
  with an explicit store: the trades of one symbol are kept as a list indexed
  by position, and lots are kept as indices into that list, so the mutated
  trade history is part of the result.
* `_backtrack` mutates one shared `partial_solution` list (push before
  recursing, pop after; the goal-check `return` does not pop), and
  `refine_solution` returns a shallow copy whose element dicts are shared with
  (and mutated through) `partial_solution`.  We model the stack by explicit
  state passing: every search function returns the stack it leaves behind.
  After the in-place refinement the contents of `partial_solution` coincide
  with the refined list, so the goal-check branch returns the refined list as
  the new stack.
* Division on `ℚ` is total (`x / 0 = 0`) where Python would raise
  `ZeroDivisionError`; the only division, `current_buy_value / current_amount`,
  has a provably positive divisor for the inputs considered (claim C10).
-/

inductive TradeType where
  | buy : TradeType
  | sell : TradeType
deriving DecidableEq, Repr, Inhabited

/-- One trade event of the input trade history (a `{"type": ..., "amount": ...,
"unit_price": ...}` dict in the JSON input).  After FIFO reconstruction the
open lots are (mutated) values of this same type, since the Python code stores
the buy-trade dicts themselves as holdings. -/
structure Trade where
  type : TradeType
  amount : ℚ
  unit_price : ℚ
deriving DecidableEq, Repr, Inhabited

/-- The per-symbol record of the input file: a tax-exemption rate
(`teilfreistellung`) and the chronological list of trades. -/
structure SymbolData where
  teilfreistellung : ℚ
  trades : List Trade
deriving DecidableEq, Repr, Inhabited

/-- Read a trade at an index of the per-symbol store (out-of-range reads do not
occur on the executions we consider). -/
def tget : List Trade → ℕ → Trade
  | [], _ => default
  | t :: _, 0 => t
  | _ :: r, n + 1 => tget r n

/-- The lot-consumption loop of a `sell` event in `get_fifo_holdings`.
`arr` is the current (mutated) trade list of the symbol, `j` the index of the
sell event being processed, and the last argument the indices of the open lots,
oldest first.  Mirrors

    for i, holding in enumerate(fifo_holdings[symbol]):
        if holding["amount"] > trade["amount"]:
            holding["amount"] -= trade["amount"]
            break
        else:
            trade["amount"] -= holding["amount"]
            fifo_holdings[symbol][i] = None
    fifo_holdings[symbol] = [h for h in fifo_holdings[symbol] if h is not None]

where both the lot (`holding`) and the sell event (`trade`) are mutated in
place. -/
def consume (j : ℕ) : List Trade → List ℕ → List Trade × List ℕ
  | arr, [] => (arr, [])
  | arr, l :: rest =>
    if (tget arr j).amount < (tget arr l).amount then
      (arr.set l { tget arr l with amount := (tget arr l).amount - (tget arr j).amount },
        l :: rest)
    else
      consume j (arr.set j { tget arr j with amount := (tget arr j).amount - (tget arr l).amount })
        rest

/-- Process one trade event (by index) of a symbol: a buy appends its own index
as a new open lot, a sell consumes open lots oldest first. -/
def processStep (st : List Trade × List ℕ) (j : ℕ) : List Trade × List ℕ :=
  match (tget st.1 j).type with
  | TradeType.buy => (st.1, st.2 ++ [j])
  | TradeType.sell => consume j st.1 st.2

/-- Process the whole trade list of one symbol.  Returns the mutated trade
list together with the open lots (the mutated buy trades still held), oldest
first. -/
def processSymbol (trades : List Trade) : List Trade × List Trade :=
  let st := (List.range trades.length).foldl processStep (trades, [])
  (st.1, st.2.map (tget st.1))

/-- `get_fifo_holdings`: per-symbol FIFO reconstruction.  The first component
is the trade history as the function leaves it (the function mutates its
input), the second the returned holdings mapping; a symbol with no remaining
lots is deleted from the mapping. -/
def get_fifo_holdings (data : List (String × SymbolData)) :
    List (String × SymbolData) × List (String × List Trade) :=
  (data.map (fun e => (e.1, { e.2 with trades := (processSymbol e.2.trades).1 })),
   data.filterMap (fun e =>
     let lots := (processSymbol e.2.trades).2
     if lots = [] then none else some (e.1, lots)))

/-- Stateless view of the sell consumption: the values of the open lots after
selling `a` against them, oldest first (same branch structure as `consume`,
forgetting the store). -/
def codeSell : List Trade → ℚ → List Trade
  | [], _ => []
  | l :: rest, a =>
    if a < l.amount then { l with amount := l.amount - a } :: rest
    else codeSell rest (a - l.amount)

/-- Stateless view of one trade event applied to the open lots. -/
def applyTrade (lots : List Trade) (t : Trade) : List Trade :=
  match t.type with
  | TradeType.buy => lots ++ [t]
  | TradeType.sell => codeSell lots t.amount

/-- Stateless view of the FIFO reconstruction of one symbol: the values of the
open lots produced by `processSymbol` (proved equal in
`processSymbol_snd_eq_fifoLots`). -/
def fifoLots (trades : List Trade) : List Trade :=
  trades.foldl applyTrade []

/-- A candidate trade produced during the search (the dict literal pushed onto
`partial_solution`), with the marginal (`last_buy_*`) breakdown of the
most-recently added lot slice. -/
structure TradeProposal where
  symbol : String
  amount : ℚ
  profit : ℚ
  taxable_profit : ℚ
  volume : ℚ
  last_buy_amount : ℚ
  last_buy_profit : ℚ
  last_buy_taxable_profit : ℚ
  last_buy_volume : ℚ
deriving DecidableEq, Repr, Inhabited

/-- The body of the selection loop of `refine_solution`
(`for trade_index, trades in enumerate(solution)` with accumulator
`(best_volume_reduction, best_proportion, best_id)`). -/
def refineScanGo : List TradeProposal → ℚ → ℕ → ℚ × ℚ × ℤ → ℚ × ℚ × ℤ
  | [], _, _, acc => acc
  | t :: r, d, i, acc =>
    refineScanGo r d (i + 1)
      (if d < t.last_buy_taxable_profit then
        let prop := d / t.last_buy_taxable_profit
        let red := prop * t.last_buy_volume
        if acc.1 < red then (red, prop, (i : ℤ)) else acc
      else acc)

/-- The selection loop of `refine_solution`: returns
`(best_volume_reduction, best_proportion, best_id)`, starting from
`(0, 0, -1)`. -/
def refineScan (sol : List TradeProposal) (difference : ℚ) : ℚ × ℚ × ℤ :=
  refineScanGo sol difference 0 (0, 0, -1)

/-- The in-place update of the selected proposal: for each of the four keys,
subtract `proportion` of the marginal field, then scale the marginal field by
`1 - proportion`. -/
def updateProposal (p : TradeProposal) (prop : ℚ) : TradeProposal :=
  { p with
    amount := p.amount - p.last_buy_amount * prop,
    profit := p.profit - p.last_buy_profit * prop,
    taxable_profit := p.taxable_profit - p.last_buy_taxable_profit * prop,
    volume := p.volume - p.last_buy_volume * prop,
    last_buy_amount := p.last_buy_amount * (1 - prop),
    last_buy_profit := p.last_buy_profit * (1 - prop),
    last_buy_taxable_profit := p.last_buy_taxable_profit * (1 - prop),
    last_buy_volume := p.last_buy_volume * (1 - prop) }

/-- Apply `updateProposal · prop` to the element at position `idx`
(`refined_solution[best_id][...] -= ...`; the selected index is always in
range on the executions that occur). -/
def applyAt : List TradeProposal → ℕ → ℚ → List TradeProposal
  | [], _, _ => []
  | p :: r, 0, prop => updateProposal p prop :: r
  | p :: r, n + 1, prop => p :: applyAt r n prop

/-- `refine_solution`.  A negative `best_id` (no proposal was selected) makes
Python index the last element (`refined_solution[-1]`), which it updates with
proportion `0`; on an empty list that indexing raises `IndexError`, modelled
as `none`.  The returned list shares its element dicts with the input
(`solution.copy()` is shallow), so after the call the contents of the input
list coincide with the returned list. -/
def refine_solution (sol : List TradeProposal) (difference : ℚ) :
    Option (List TradeProposal) :=
  match sol with
  | [] => none
  | _ :: _ =>
    let s := refineScan sol difference
    let idx := if s.2.2 < 0 then sol.length - 1 else s.2.2.toNat
    some (applyAt sol idx s.2.1)

/-- The sentinel used for "no solution yet" (`INFINITY = 1_000_000_000`). -/
def INFINITY : ℚ := 1000000000

/-- Result of the inner per-symbol lot loop: either the goal-check `return`
fired (`early`, carrying total volume, refined solution, and the stack as the
loop leaves it), or the loop ran to the end (`done`, carrying the best volume
and solution seen so far and the stack). -/
inductive LoopRes where
  | early : ℚ → List TradeProposal → List TradeProposal → LoopRes
  | done : ℚ → List TradeProposal → List TradeProposal → LoopRes
deriving DecidableEq, Repr

/-- The read-only context of `_backtrack`: the reconstructed holdings (an
insertion-ordered mapping, whose keys are the `symbols` list), the current
prices and the per-symbol exemption rates. -/
structure SearchCtx where
  holdings : List (String × List Trade)
  prices : String → ℚ
  tf : String → ℚ

/-- The inner loop of `_backtrack` over the lots of one symbol
(`for i in range(0, len(fifo_holdings[symbol]))`), accumulating
`current_buy_value` (`bv`) and `current_amount` (`amt`).  `recur` is the
recursive call at one less allowed trade; `deeper` is `allowed_trades > 1`.
The stack argument is the current content of `partial_solution`; each
materialized proposal is appended, and `List.dropLast` is the trailing
`partial_solution.pop()` (which, after a recursion whose goal-check leaked an
entry, removes that leftover instead of the proposal pushed here — exactly as
the Python does). -/
def lotLoop
    (recur : ℕ → ℚ → List TradeProposal → Option (ℚ × List TradeProposal) × List TradeProposal)
    (deeper : Bool) (price tfv : ℚ) (sym : String) (nextIndex : ℕ) (left : ℚ) :
    List Trade → ℚ → ℚ → ℚ × List TradeProposal → List TradeProposal → LoopRes
  | [], _, _, best, stack => LoopRes.done best.1 best.2 stack
  | lot :: rest, bv, amt, best, stack =>
    let bv2 := bv + lot.amount * lot.unit_price
    let amt2 := amt + lot.amount
    if bv2 / amt2 < price then
      let volume := amt2 * price
      let profit := volume - bv2
      let taxable := profit * (1 - tfv)
      let lbProfit := lot.amount * (price - lot.unit_price)
      let p : TradeProposal :=
        { symbol := sym, amount := amt2, profit := profit,
          taxable_profit := profit * (1 - tfv), volume := volume,
          last_buy_amount := lot.amount, last_buy_profit := lbProfit,
          last_buy_taxable_profit := lbProfit * (1 - tfv),
          last_buy_volume := lot.amount * price }
      let stack2 := stack ++ [p]
      if left ≤ taxable then
        match refine_solution stack2 (taxable - left) with
        | some refined =>
          LoopRes.early ((refined.map (fun t => t.volume)).sum) refined refined
        | none => LoopRes.early 0 [] stack2
      else
        if deeper then
          match recur nextIndex (left - taxable) stack2 with
          | (some r, st2) =>
            if r.1 < best.1 then
              lotLoop recur deeper price tfv sym nextIndex left rest bv2 amt2 (r.1, r.2)
                st2.dropLast
            else
              lotLoop recur deeper price tfv sym nextIndex left rest bv2 amt2 best
                st2.dropLast
          | (none, st2) =>
            lotLoop recur deeper price tfv sym nextIndex left rest bv2 amt2 best st2.dropLast
        else
          lotLoop recur deeper price tfv sym nextIndex left rest bv2 amt2 best stack2.dropLast
    else
      lotLoop recur deeper price tfv sym nextIndex left rest bv2 amt2 best stack

/-- The outer loop of `_backtrack` over the candidate symbols
(`for offset, symbol in enumerate(symbols[index:])`); at the end, the best
result is returned if one was found (`best_volume < INFINITY`). -/
def symLoop
    (recur : ℕ → ℚ → List TradeProposal → Option (ℚ × List TradeProposal) × List TradeProposal)
    (deeper : Bool) (prices tf : String → ℚ) (left : ℚ) :
    List (String × List Trade) → ℕ → ℚ × List TradeProposal → List TradeProposal →
    Option (ℚ × List TradeProposal) × List TradeProposal
  | [], _, best, stack => if best.1 < INFINITY then (some best, stack) else (none, stack)
  | (sym, lots) :: rest, symIndex, best, stack =>
    match lotLoop recur deeper (prices sym) (tf sym) sym (symIndex + 1) left lots 0 0 best stack with
    | LoopRes.early v s st => (some (v, s), st)
    | LoopRes.done bv bs st => symLoop recur deeper prices tf left rest (symIndex + 1) (bv, bs) st

/-- `_backtrack(allowed_trades, index, profit_left, partial_solution)`.
Returns the Python return value together with the content of
`partial_solution` when the call returns (the goal-check `return` does not
restore it). -/
def backtrack (ctx : SearchCtx) :
    ℕ → ℕ → ℚ → List TradeProposal → Option (ℚ × List TradeProposal) × List TradeProposal
  | 0, _, _, stack => (none, stack)
  | a + 1, index, left, stack =>
    if ctx.holdings.length < index then (none, stack)
    else
      symLoop (fun i l s => backtrack ctx a i l s) (decide (0 < a)) ctx.prices ctx.tf left
        (ctx.holdings.drop index) index (INFINITY, []) stack

/-- The iterative-deepening driver: try `allowed_trades = k, k+1, ...` for
`fuel` rounds, each time on a fresh empty `partial_solution`, and return the
first hit together with the trade count that produced it. -/
def searchFrom (ctx : SearchCtx) (desired : ℚ) :
    ℕ → ℕ → Option (ℕ × ℚ × List TradeProposal)
  | _, 0 => none
  | k, fuel + 1 =>
    match (backtrack ctx k 0 desired []).1 with
    | some r => some (k, r.1, r.2)
    | none => searchFrom ctx desired (k + 1) fuel

def MAX_TRADES : ℕ := 3

/-- The outer loop `for number_of_allowed_trades in range(1, MAX_TRADES + 1)`:
the first trade count whose search succeeds, with its volume and solution;
`none` is the "No solution found" case. -/
def find_minimal_solution (ctx : SearchCtx) (desired : ℚ) :
    Option (ℕ × ℚ × List TradeProposal) :=
  searchFrom ctx desired 1 MAX_TRADES

/-- The `teilfreistellung` dict built in `determine_optimal_sales`, as a
lookup function (reads of absent symbols do not occur). -/
def tfOf (data : List (String × SymbolData)) : String → ℚ :=
  fun s => ((data.find? (fun e => e.1 == s)).map (fun e => e.2.teilfreistellung)).getD 0

/-- `determine_optimal_sales` without the file and console I/O: reconstruct
holdings, then search for the minimal solution. -/
def determine_optimal_sales (data : List (String × SymbolData))
    (prices : String → ℚ) (desired : ℚ) : Option (ℕ × ℚ × List TradeProposal) :=
  find_minimal_solution ⟨(get_fifo_holdings data).2, prices, tfOf data⟩ desired

/-! ### Spec-side definitions and derived quantities -/

/-- Total amount of the first `n` lots of a symbol — the value of
`current_amount` after the lot loop has accumulated `n` lots. -/
def cutAmount (lots : List Trade) (n : ℕ) : ℚ :=
  ((lots.take n).map (fun t => t.amount)).sum

/-- Total buy value of the first `n` lots — the value of `current_buy_value`
after `n` lots. -/
def cutBuyValue (lots : List Trade) (n : ℕ) : ℚ :=
  ((lots.take n).map (fun t => t.amount * t.unit_price)).sum

/-- Sale volume of selling the first `n` lots at the current price. -/
def cutVolume (lots : List Trade) (price : ℚ) (n : ℕ) : ℚ :=
  cutAmount lots n * price

/-- Taxable profit of selling the first `n` lots at the current price under
exemption rate `tfv`. -/
def cutTaxable (lots : List Trade) (price tfv : ℚ) (n : ℕ) : ℚ :=
  (cutVolume lots price n - cutBuyValue lots n) * (1 - tfv)

/-- The successive values of `current_amount` produced by the lot loop of
`_backtrack` over these lots, starting from accumulator `amt` — i.e. the
divisors of every `current_buy_value / current_amount` evaluation. -/
def divisorsList : List Trade → ℚ → List ℚ
  | [], _ => []
  | lot :: rest, amt => (amt + lot.amount) :: divisorsList rest (amt + lot.amount)

/-- `noProfitRun price lots bv amt = true` iff the lot loop run over `lots`
from accumulators `(bv, amt)` never passes the positive-profit test
`current_buy_value / current_amount < price`, i.e. the symbol never
materializes a proposal. -/
def noProfitRun (price : ℚ) : List Trade → ℚ → ℚ → Bool
  | [], _, _ => true
  | lot :: rest, bv, amt =>
    !(decide ((bv + lot.amount * lot.unit_price) / (amt + lot.amount) < price)) &&
      noProfitRun price rest (bv + lot.amount * lot.unit_price) (amt + lot.amount)

/-- Modelled from the spec (claim C6 wording): consume a sell oldest-first —
while the sell amount remains positive, the oldest lot is reduced, and a lot
whose amount would reach zero or below is removed with the remainder carried
to the next-oldest lot. -/
def specSell : List Trade → ℚ → List Trade
  | [], _ => []
  | l :: r, a =>
    if a ≤ 0 then l :: r
    else if l.amount ≤ a then specSell r (a - l.amount)
    else { l with amount := l.amount - a } :: r

/-- Modelled from the spec: one trade event applied to the open lots (a buy
appends a new lot, a sell consumes oldest-first). -/
def specApply (lots : List Trade) (t : Trade) : List Trade :=
  match t.type with
  | TradeType.buy => lots ++ [t]
  | TradeType.sell => specSell lots t.amount

/-- Modelled from the spec: the FIFO-remaining open lots of one symbol. -/
def specLots (trades : List Trade) : List Trade :=
  trades.foldl specApply []

/-- Sum of the amounts of all buy events. -/
def totalBuys : List Trade → ℚ
  | [] => 0
  | t :: r => (if t.type = TradeType.buy then t.amount else 0) + totalBuys r

/-- Sum of the amounts of all sell events. -/
def totalSells : List Trade → ℚ
  | [] => 0
  | t :: r => (if t.type = TradeType.sell then t.amount else 0) + totalSells r

/-- `feasibleRun trades h = true` iff, starting from `h` units held, no sell
event ever exceeds the amount currently held (the data-consistency
precondition of the Holdings Reconstructor). -/
def feasibleRun : List Trade → ℚ → Bool
  | [], _ => true
  | t :: r, h =>
    match t.type with
    | TradeType.buy => feasibleRun r (h + t.amount)
    | TradeType.sell => decide (t.amount ≤ h) && feasibleRun r (h - t.amount)

/-- Sum of the amounts of a list of lots. -/
def lotSum (lots : List Trade) : ℚ :=
  (lots.map (fun t => t.amount)).sum

/-- Total number of open lots across all holdings entries — the number of
lot-loop iterations one `_backtrack` level can perform. -/
def totalLots (hs : List (String × List Trade)) : ℕ :=
  (hs.map (fun e => e.2.length)).sum

/-- An upper bound on the volume of any single proposal the search can
materialize: the total sale value of all holdings at current prices. -/
def capVol (prices : String → ℚ) (hs : List (String × List Trade)) : ℚ :=
  (hs.map (fun e => lotSum e.2 * prices e.1)).sum

/-- Volume sanity of one proposal record: nonnegative marginal volume and
total volume at most `B`.  Every proposal the search creates or refines
satisfies this (lemma `backtrack_bound`). -/
def propVolOK (B : ℚ) (p : TradeProposal) : Prop :=
  0 ≤ p.last_buy_volume ∧ p.volume ≤ B

/-- Total volume of a list of proposals — the quantity summed by the
goal-check branch and minimized by the search. -/
def solVol (l : List TradeProposal) : ℚ :=
  (l.map (fun t => t.volume)).sum

/-- Bound on the number of entries one `_backtrack` call at the given
allowed-trade count can add to the shared stack (the unpopped goal-check
`return` leaks at most the recursion's own bound per lot iteration, plus the
one entry of the final unpopped push), with `T` the total lot count. -/
def leakF (T : ℕ) : ℕ → ℕ
  | 0 => 0
  | a + 1 => T * leakF T a + 1

/-- Bound on the length of any solution a `_backtrack` call at the given
allowed-trade count can return, beyond the entry stack's length. -/
def leakG (T : ℕ) : ℕ → ℕ
  | 0 => 0
  | a + 1 => leakF T (a + 1) + leakG T a

/-- Modelled from the claim's wording (C1): one candidate trade of a
"combination" — a holdings entry together with a number `n` of its oldest
lots to sell (the only sales the search ever considers are FIFO prefixes),
passing the search's own profitability gate
`current_buy_value / current_amount < price`. -/
def comboTrade (prices : String → ℚ) (q : (String × List Trade) × ℕ) : Prop :=
  0 < q.2 ∧ q.2 ≤ q.1.2.length ∧
    cutBuyValue q.1.2 q.2 / cutAmount q.1.2 q.2 < prices q.1.1

/-- Modelled from the claim's wording: a valid combination of trades —
distinct holdings entries, taken in holdings order (the search's canonical
order; total taxable profit does not depend on the order), each selling a
profitable FIFO prefix. -/
def Combo (prices : String → ℚ) (hs : List (String × List Trade))
    (sel : List ((String × List Trade) × ℕ)) : Prop :=
  (sel.map (fun q => q.1)).Sublist hs ∧ ∀ q ∈ sel, comboTrade prices q

/-- Total taxable profit of a combination of trades. -/
def comboTaxable (prices tf : String → ℚ)
    (sel : List ((String × List Trade) × ℕ)) : ℚ :=
  (sel.map (fun q => cutTaxable q.1.2 (prices q.1.1) (tf q.1.1) q.2)).sum

/-- Modelled from the claim's wording: some combination of at most `j` trades
reaches the target taxable profit. -/
def reaches (prices tf : String → ℚ) (hs : List (String × List Trade))
    (j : ℕ) (target : ℚ) : Prop :=
  ∃ sel, Combo prices hs sel ∧ sel.length ≤ j ∧
    target ≤ comboTaxable prices tf sel

/-! ### Concrete inputs used by the counterexamples and witnesses -/

/-- The spec's worked example: one security with buy lots 10 @ 100 and
10 @ 120, current price 150, exemption 0. -/
def dataC4 : List (String × SymbolData) :=
  [("S", { teilfreistellung := 0,
           trades := [⟨TradeType.buy, 10, 100⟩, ⟨TradeType.buy, 10, 120⟩] })]

def pricesC4 : String → ℚ := fun _ => 150

/-- Two securities, both able to reach a taxable profit of 100 with one
trade: A (10 @ 90, price 100, volume 1000) and B (10 @ 0, price 10,
volume 100). -/
def ctxC1 : SearchCtx :=
  { holdings := [("A", [⟨TradeType.buy, 10, 90⟩]), ("B", [⟨TradeType.buy, 10, 0⟩])],
    prices := fun s => if s = "A" then 100 else 10,
    tf := fun _ => 0 }

/-- Input on which the `best_volume < INFINITY` sentinel swallows every
two-trade solution: C and D are small (taxable profit 35 each, volume 100),
A and B are huge (taxable profit 60 each, volume 700 000 000 ≥ 10⁹ in any
pair).  With target 100 the only reaching pairs contain A or B and every
goal-check hit for them has refined volume ≥ 10⁹, so the searches at counts
1 and 2 return nothing and the program answers with the three-trade
C+D+half-of-A solution — although {A, B} is a valid two-trade combination
reaching the target. -/
def ctxC1b : SearchCtx :=
  { holdings := [("C", [⟨TradeType.buy, 1, 65⟩]), ("D", [⟨TradeType.buy, 1, 65⟩]),
                 ("A", [⟨TradeType.buy, 1, 699999940⟩]),
                 ("B", [⟨TradeType.buy, 1, 699999940⟩])],
    prices := fun s => if s = "A" then 700000000 else if s = "B" then 700000000 else 100,
    tf := fun _ => 0 }

/-- Input on which the unrestored goal-check return corrupts the shared
stack: A has lots 1 @ 5 and 1 @ 8 at price 10, B has one lot 100 @ 99 at
price 100; no single trade reaches 105, and during the two-trade search the
leaked proposal for A's first lot ends up inside the returned solution. -/
def ctxLeak : SearchCtx :=
  { holdings := [("A", [⟨TradeType.buy, 1, 5⟩, ⟨TradeType.buy, 1, 8⟩]),
                 ("B", [⟨TradeType.buy, 100, 99⟩])],
    prices := fun s => if s = "A" then 10 else 100,
    tf := fun _ => 0 }

/-- A trade history with one partially consumed lot: buy 10 @ 100, then
sell 4. -/
def dataC9 : List (String × SymbolData) :=
  [("S", { teilfreistellung := 0,
           trades := [⟨TradeType.buy, 10, 100⟩, ⟨TradeType.sell, 4, 150⟩] })]

/-- One security whose average cost over all lots (125) exceeds the current
price (100), but whose first lot alone (1 @ 50) is profitable. -/
def ctxC8 : SearchCtx :=
  { holdings := [("S", [⟨TradeType.buy, 1, 50⟩, ⟨TradeType.buy, 1, 200⟩])],
    prices := fun _ => 100,
    tf := fun _ => 0 }

/-- Profitable security A next to a security L held entirely at a loss
(1 @ 300 against price 100). -/
def ctxC8W : SearchCtx :=
  { holdings := [("A", [⟨TradeType.buy, 10, 90⟩]), ("L", [⟨TradeType.buy, 1, 300⟩])],
    prices := fun _ => 100,
    tf := fun _ => 0 }

/-- The search context that `determine_optimal_sales` builds for `dataC4`. -/
def ctxC4 : SearchCtx :=
  ⟨(get_fifo_holdings dataC4).2, pricesC4, tfOf dataC4⟩

/-- The proposal materialized for the first lot of a symbol (accumulators
still zero), as pushed by the lot loop. -/
def propOf0 (sym : String) (price tfv : ℚ) (lot : Trade) : TradeProposal :=
  { symbol := sym,
    amount := lot.amount,
    profit := lot.amount * price - lot.amount * lot.unit_price,
    taxable_profit := (lot.amount * price - lot.amount * lot.unit_price) * (1 - tfv),
    volume := lot.amount * price,
    last_buy_amount := lot.amount,
    last_buy_profit := lot.amount * (price - lot.unit_price),
    last_buy_taxable_profit := lot.amount * (price - lot.unit_price) * (1 - tfv),
    last_buy_volume := lot.amount * price }

/-- A history exercising FIFO consumption across a lot boundary: buy 10 @
100, buy 5 @ 120, then sell 12 (consumes the whole first lot and 2 units of
the second). -/
def dataC6W : List (String × SymbolData) :=
  [("S", { teilfreistellung := 0,
           trades := [⟨TradeType.buy, 10, 100⟩, ⟨TradeType.buy, 5, 120⟩,
                      ⟨TradeType.sell, 12, 130⟩] })]

/-! ### Theorems -/

/-- C4: on one security with buy lots 10 @ 100 and 10 @ 120, current price
150, exemption 0 and target taxable profit 400, the program returns a
single-trade solution selling 8 units with profit 400, taxable profit 400 and
volume 1200 (the 10-unit, profit-500 candidate refined down). -/
theorem C4_example_scenario :
    determine_optimal_sales dataC4 pricesC4 400 =
      some (1, 1200, [⟨"S", 8, 400, 400, 1200, 8, 400, 400, 1200⟩]) := by
  norm_num [determine_optimal_sales, find_minimal_solution, searchFrom, backtrack, symLoop,
    lotLoop, refine_solution, refineScan, refineScanGo, applyAt, updateProposal,
    get_fifo_holdings, processSymbol, processStep, consume, tget, tfOf,
    INFINITY, MAX_TRADES, dataC4, pricesC4,
    List.range_succ, List.range_zero, List.foldl_append, List.filterMap_cons,
    List.dropLast, List.sum_cons, List.sum_nil]

/-- C1, counterexample — both halves of the claim fail.  Volume half: with A
(one lot 10 @ 90, price 100) and B (one lot 10 @ 0, price 10) and target
100, the program returns the single-trade A solution with volume 1000,
although selling B's first lot alone is a valid single-trade combination
(taxable profit 100 meets the target) with volume 100 < 1000.  Fewest-trades
half: on `ctxC1b` with target 100 the program answers with a three-trade
solution, although `{A, B}` is a valid two-trade combination reaching the
target — every reaching pair contains a security whose goal-check solutions
have volume at or above the `INFINITY` sentinel and are silently discarded
by the `best_volume < INFINITY` comparison. -/
theorem C1_counterexample :
    (find_minimal_solution ctxC1 100 =
      some (1, 1000, [⟨"A", 10, 100, 100, 1000, 10, 100, 100, 1000⟩]) ∧
     (100 : ℚ) ≤ cutTaxable [⟨TradeType.buy, 10, 0⟩] 10 0 1 ∧
     cutAmount [⟨TradeType.buy, 10, 0⟩] 1 ≤ 10 ∧
     cutVolume [⟨TradeType.buy, 10, 0⟩] 10 1 < 1000) ∧
    (find_minimal_solution ctxC1b 100 =
      some (3, 350000200,
        [⟨"C", 1, 35, 35, 100, 1, 35, 35, 100⟩,
         ⟨"D", 1, 35, 35, 100, 1, 35, 35, 100⟩,
         ⟨"A", 1/2, 30, 30, 350000000, 1/2, 30, 30, 350000000⟩]) ∧
     reaches ctxC1b.prices ctxC1b.tf ctxC1b.holdings 2 100) := by
  constructor
  · norm_num [find_minimal_solution, searchFrom, backtrack, symLoop,
      lotLoop, refine_solution, refineScan, refineScanGo, applyAt, updateProposal,
      INFINITY, MAX_TRADES, ctxC1, cutTaxable, cutVolume, cutAmount, cutBuyValue,
      List.dropLast, List.sum_cons, List.sum_nil,
      show (("B":String) = "A") = False by simp]
  constructor
  · norm_num [find_minimal_solution, searchFrom, backtrack, symLoop,
      lotLoop, refine_solution, refineScan, refineScanGo, applyAt, updateProposal,
      INFINITY, MAX_TRADES, ctxC1b,
      List.dropLast, List.sum_cons, List.sum_nil,
      show (("C":String) = "A") = False by simp,
      show (("C":String) = "B") = False by simp,
      show (("D":String) = "A") = False by simp,
      show (("D":String) = "B") = False by simp,
      show (("B":String) = "A") = False by simp]
  · refine ⟨[(("A", [⟨TradeType.buy, 1, 699999940⟩]), 1),
      (("B", [⟨TradeType.buy, 1, 699999940⟩]), 1)], ⟨?_, ?_⟩, ?_, ?_⟩
    · show ([("A", [⟨TradeType.buy, 1, 699999940⟩]),
        ("B", [⟨TradeType.buy, 1, 699999940⟩])] :
          List (String × List Trade)).Sublist ctxC1b.holdings
      have hh : ctxC1b.holdings = [("C", [⟨TradeType.buy, 1, 65⟩]),
        ("D", [⟨TradeType.buy, 1, 65⟩]), ("A", [⟨TradeType.buy, 1, 699999940⟩]),
        ("B", [⟨TradeType.buy, 1, 699999940⟩])] := rfl
      rw [hh]
      exact List.Sublist.cons _ (List.Sublist.cons _
        (List.Sublist.cons₂ _ (List.Sublist.cons₂ _ List.Sublist.slnil)))
    · intro q hq
      simp only [List.mem_cons, List.not_mem_nil, or_false] at hq
      rcases hq with hq | hq <;> subst hq <;>
        norm_num [comboTrade, cutAmount, cutBuyValue, ctxC1b,
          show (("B":String) = "A") = False by simp]
    · norm_num
    · norm_num [comboTaxable, cutTaxable, cutVolume, cutAmount, cutBuyValue, ctxC1b,
        show (("B":String) = "A") = False by simp]

/-- C2, counterexample: on `ctxLeak` with target 105, counts 1 fails and the
count-2 search returns a solution whose proposals' taxable profits sum to
110 ≠ 105: the goal-check `return` left A's first-lot proposal on the shared
stack, and it ends up inside the returned (refined) solution. -/
theorem C2_counterexample :
    find_minimal_solution ctxLeak 105 =
      some (2, 9830,
        [⟨"A", 1, 5, 5, 10, 1, 5, 5, 10⟩,
         ⟨"A", 2, 7, 7, 20, 1, 2, 2, 10⟩,
         ⟨"B", 98, 98, 98, 9800, 98, 98, 98, 9800⟩]) ∧
    (([⟨"A", 1, 5, 5, 10, 1, 5, 5, 10⟩,
       ⟨"A", 2, 7, 7, 20, 1, 2, 2, 10⟩,
       ⟨"B", 98, 98, 98, 9800, 98, 98, 98, 9800⟩] : List TradeProposal).map
        (fun p => p.taxable_profit)).sum = 110 ∧
    (110 : ℚ) ≠ 105 := by
  norm_num [find_minimal_solution, searchFrom, backtrack, symLoop,
    lotLoop, refine_solution, refineScan, refineScanGo, applyAt, updateProposal,
    INFINITY, MAX_TRADES, ctxLeak,
    List.dropLast, List.sum_cons, List.sum_nil,
    show (("B":String) = "A") = False by simp]

/-- C3, counterexample: the same run returns, from the search with trade-count
bound 2, a solution with 3 proposals, two of which are for the same security
A. -/
theorem C3_counterexample :
    find_minimal_solution ctxLeak 105 =
      some (2, 9830,
        [⟨"A", 1, 5, 5, 10, 1, 5, 5, 10⟩,
         ⟨"A", 2, 7, 7, 20, 1, 2, 2, 10⟩,
         ⟨"B", 98, 98, 98, 9800, 98, 98, 98, 9800⟩]) ∧
    ([⟨"A", 1, 5, 5, 10, 1, 5, 5, 10⟩,
      ⟨"A", 2, 7, 7, 20, 1, 2, 2, 10⟩,
      ⟨"B", 98, 98, 98, 9800, 98, 98, 98, 9800⟩] : List TradeProposal).length = 3 ∧
    ¬ ([⟨"A", 1, 5, 5, 10, 1, 5, 5, 10⟩,
        ⟨"A", 2, 7, 7, 20, 1, 2, 2, 10⟩,
        ⟨"B", 98, 98, 98, 9800, 98, 98, 98, 9800⟩] : List TradeProposal).length ≤ 2 ∧
    ([⟨"A", 1, 5, 5, 10, 1, 5, 5, 10⟩,
      ⟨"A", 2, 7, 7, 20, 1, 2, 2, 10⟩,
      ⟨"B", 98, 98, 98, 9800, 98, 98, 98, 9800⟩] : List TradeProposal).map
        (fun p => p.symbol) = ["A", "A", "B"] := by
  norm_num [find_minimal_solution, searchFrom, backtrack, symLoop,
    lotLoop, refine_solution, refineScan, refineScanGo, applyAt, updateProposal,
    INFINITY, MAX_TRADES, ctxLeak,
    List.dropLast, List.sum_cons, List.sum_nil,
    show (("B":String) = "A") = False by simp]

/-- C7, counterexample: on the `dataC4` context, `_backtrack` is entered with
an empty `partial_solution` but returns, through the goal-check path, with the
refined proposal still on the stack — the stack is not restored on that exit
path. -/
theorem C7_counterexample :
    (backtrack ctxC4 1 0 400 []).2 = [⟨"S", 8, 400, 400, 1200, 8, 400, 400, 1200⟩] ∧
    ([⟨"S", 8, 400, 400, 1200, 8, 400, 400, 1200⟩] : List TradeProposal) ≠ [] := by
  norm_num [backtrack, symLoop, lotLoop, refine_solution, refineScan, refineScanGo,
    applyAt, updateProposal, get_fifo_holdings, processSymbol, processStep, consume, tget,
    tfOf, INFINITY, ctxC4, dataC4, pricesC4,
    List.range_succ, List.range_zero, List.foldl_append, List.filterMap_cons,
    List.dropLast, List.sum_cons, List.sum_nil]

/-- C8, counterexample: the security S holds lots 1 @ 50 and 1 @ 200 at
current price 100, so its FIFO average cost over all held lots is 125 ≥ 100
(selling everything would realize a loss), yet the program returns a solution
whose only proposal is for S (selling just the profitable first lot). -/
theorem C8_counterexample :
    find_minimal_solution ctxC8 50 =
      some (1, 100, [⟨"S", 1, 50, 50, 100, 1, 50, 50, 100⟩]) ∧
    cutBuyValue [⟨TradeType.buy, 1, 50⟩, ⟨TradeType.buy, 1, 200⟩] 2 /
        cutAmount [⟨TradeType.buy, 1, 50⟩, ⟨TradeType.buy, 1, 200⟩] 2 = 125 ∧
    (100 : ℚ) ≤ 125 := by
  norm_num [find_minimal_solution, searchFrom, backtrack, symLoop,
    lotLoop, refine_solution, refineScan, refineScanGo, applyAt, updateProposal,
    INFINITY, MAX_TRADES, ctxC8, cutAmount, cutBuyValue,
    List.dropLast, List.sum_cons, List.sum_nil]

/-- C9: `get_fifo_holdings` mutates its input (the returned lots alias the
buy-trade dicts, and a sell decrements its own amount), so it is not
idempotent: on `dataC9` (buy 10 @ 100 then sell 4) the first run leaves the
trade history changed, and a second run over the value the first run left
behind yields different holdings (2 units instead of 6). -/
theorem C9_not_idempotent :
    (get_fifo_holdings dataC9).1 ≠ dataC9 ∧
    (get_fifo_holdings (get_fifo_holdings dataC9).1).2 ≠ (get_fifo_holdings dataC9).2 := by
  norm_num [get_fifo_holdings, processSymbol, processStep, consume, tget, dataC9,
    List.range_succ, List.range_zero, List.foldl_append, List.filterMap_cons,
    SymbolData.mk.injEq, Trade.mk.injEq]

/-- C5, counterexample: refinement invoked with positive difference 10 on a
solution whose only proposal has marginal taxable profit 5 (no proposal can
absorb the reduction) does not raise: it returns the solution unchanged. -/
theorem C5_counterexample :
    refine_solution [⟨"S", 1, 5, 5, 10, 1, 5, 5, 10⟩] 10 =
      some [⟨"S", 1, 5, 5, 10, 1, 5, 5, 10⟩] ∧
    (⟨"S", 1, 5, 5, 10, 1, 5, 5, 10⟩ : TradeProposal).last_buy_taxable_profit ≤ 10 ∧
    (0 : ℚ) < 10 := by
  norm_num [refine_solution, refineScan, refineScanGo, applyAt, updateProposal]

/-- If the iterative-deepening driver starting at `k0` answers with trade
count `k`, then every count in `[k0, k)` was tried first and found nothing. -/
lemma searchFrom_none_below (ctx : SearchCtx) (desired : ℚ) :
    ∀ (fuel k0 k : ℕ) (v : ℚ) (sol : List TradeProposal),
      searchFrom ctx desired k0 fuel = some (k, v, sol) →
      ∀ j, k0 ≤ j → j < k → (backtrack ctx j 0 desired []).1 = none := by
  intro fuel
  induction fuel with
  | zero => intro k0 k v sol h; simp [searchFrom] at h
  | succ n ih =>
    intro k0 k v sol h j hj1 hj2
    rw [searchFrom] at h
    cases hb : (backtrack ctx k0 0 desired []).1 with
    | some r =>
      rw [hb] at h
      simp only [Option.some.injEq, Prod.mk.injEq] at h
      omega
    | none =>
      rw [hb] at h
      rcases Nat.eq_or_lt_of_le hj1 with heq | hlt
      · subst heq; exact hb
      · exact ih (k0 + 1) k v sol h j hlt hj2

/-- If no proposal's marginal taxable profit exceeds the difference, the
selection loop never updates its accumulator. -/
lemma refineScanGo_no_qual :
    ∀ (sol : List TradeProposal) (d : ℚ) (i : ℕ) (acc : ℚ × ℚ × ℤ),
      (∀ t ∈ sol, t.last_buy_taxable_profit ≤ d) →
      refineScanGo sol d i acc = acc := by
  intro sol
  induction sol with
  | nil => intro d i acc _; rfl
  | cons p r ih =>
    intro d i acc hall
    rw [refineScanGo, if_neg (not_lt.mpr (hall p (List.mem_cons_self p r)))]
    exact ih d (i + 1) acc (fun t ht => hall t (List.mem_cons_of_mem p ht))

/-- Updating a proposal with proportion `0` changes nothing. -/
lemma updateProposal_zero (p : TradeProposal) : updateProposal p 0 = p := by
  cases p; simp [updateProposal]

/-- Applying the zero-proportion update anywhere changes nothing. -/
lemma applyAt_zero : ∀ (sol : List TradeProposal) (idx : ℕ), applyAt sol idx 0 = sol := by
  intro sol
  induction sol with
  | nil => intro idx; rfl
  | cons p r ih =>
    intro idx
    cases idx with
    | zero => rw [applyAt, updateProposal_zero]
    | succ n => rw [applyAt, ih n]

/-- C5 (amended): refinement does not fail loudly.  Invoked with a positive
difference on a nonempty partial solution none of whose proposals has
marginal taxable profit above the difference, it returns the solution
unchanged (so the caller receives a solution whose total taxable profit
exceeds the target by the difference); only an empty proposal list would
raise (`IndexError` on `refined_solution[-1]`), which cannot occur at the
search's call sites. -/
theorem C5_amended_silent_no_op :
    ∀ (sol : List TradeProposal) (d : ℚ), sol ≠ [] → 0 < d →
      (∀ t ∈ sol, t.last_buy_taxable_profit ≤ d) →
      refine_solution sol d = some sol := by
  intro sol d hne _ hall
  cases sol with
  | nil => exact absurd rfl hne
  | cons p r =>
    simp only [refine_solution, refineScan, refineScanGo_no_qual _ _ _ _ hall]
    norm_num [applyAt_zero]

/-- C5 witness: a concrete invocation with difference 5 and a single proposal
of marginal taxable profit 2 returns the solution unchanged. -/
theorem C5_amended_witness :
    refine_solution [⟨"S", 2, 3, 3, 6, 1, 2, 2, 4⟩] 5 =
      some [⟨"S", 2, 3, 3, 6, 1, 2, 2, 4⟩] :=
  C5_amended_silent_no_op [⟨"S", 2, 3, 3, 6, 1, 2, 2, 4⟩] 5 (by simp) (by norm_num)
    (by intro t ht; simp only [List.mem_singleton] at ht; subst ht; norm_num)

/-- Reading a just-written store position yields the written value. -/
lemma tget_set_self : ∀ (arr : List Trade) (i : ℕ) (v : Trade),
    i < arr.length → tget (arr.set i v) i = v := by
  intro arr
  induction arr with
  | nil => intro i v h; simp at h
  | cons a t ih =>
    intro i v h
    cases i with
    | zero => rfl
    | succ n => exact ih n v (Nat.lt_of_succ_lt_succ h)

/-- Writing one store position leaves the others unchanged. -/
lemma tget_set_ne : ∀ (arr : List Trade) (i j : ℕ) (v : Trade),
    i ≠ j → tget (arr.set i v) j = tget arr j := by
  intro arr
  induction arr with
  | nil => intro i j v _; rfl
  | cons a t ih =>
    intro i j v hij
    cases i with
    | zero =>
      cases j with
      | zero => exact absurd rfl hij
      | succ m => rfl
    | succ n =>
      cases j with
      | zero => rfl
      | succ m => exact ih n m v (fun h => hij (by rw [h]))

/-- `tget` agrees with list indexing in range. -/
lemma tget_eq_get : ∀ (l : List Trade) (m : ℕ) (h : m < l.length), tget l m = l.get ⟨m, h⟩ := by
  intro l
  induction l with
  | nil => intro m h; simp at h
  | cons a t ih =>
    intro m h
    cases m with
    | zero => rfl
    | succ n => exact ih n (Nat.lt_of_succ_lt_succ h)

/-- The store-level sell consumption agrees with its stateless view
`codeSell`: it preserves the store length, the dereferenced remaining lots
are `codeSell` of the dereferenced input lots by the sell's amount, positions
other than the touched lots and the sell itself are unchanged, and the
remaining lot indices are a suffix of the input indices. -/
lemma consume_spec (j : ℕ) :
    ∀ (lots : List ℕ) (arr : List Trade),
      j < arr.length →
      (∀ l ∈ lots, l < j) →
      lots.Nodup →
      (consume j arr lots).1.length = arr.length ∧
      (consume j arr lots).2.map (tget (consume j arr lots).1)
          = codeSell (lots.map (tget arr)) ((tget arr j).amount) ∧
      (∀ i, i ∉ lots → i ≠ j → tget (consume j arr lots).1 i = tget arr i) ∧
      (consume j arr lots).2 <:+ lots := by
  intro lots
  induction lots with
  | nil =>
    intro arr _ _ _
    exact ⟨rfl, rfl, fun _ _ _ => rfl, List.nil_suffix⟩
  | cons l rest ih =>
    intro arr hj hlt hnd
    have hlj : l < j := hlt l (List.mem_cons_self _ _)
    have hlarr : l < arr.length := lt_trans hlj hj
    have hlnotmem : l ∉ rest := (List.nodup_cons.mp hnd).1
    by_cases hc : (tget arr j).amount < (tget arr l).amount
    · rw [consume, if_pos hc]
      refine ⟨by rw [List.length_set], ?_, ?_, List.suffix_refl _⟩
      · rw [List.map_cons, List.map_cons, codeSell, if_pos hc,
          tget_set_self arr l { tget arr l with
            amount := (tget arr l).amount - (tget arr j).amount } hlarr]
        have hmap0 : rest.map (tget (arr.set l { tget arr l with
            amount := (tget arr l).amount - (tget arr j).amount })) = rest.map (tget arr) :=
          List.map_congr_left (fun x hx =>
            tget_set_ne arr l x { tget arr l with
              amount := (tget arr l).amount - (tget arr j).amount }
              (fun h => hlnotmem (h ▸ hx)))
        rw [hmap0]
      · intro i hi hij
        exact tget_set_ne arr l i { tget arr l with
            amount := (tget arr l).amount - (tget arr j).amount }
          (fun h => hi (h ▸ List.mem_cons_self l rest))
    · rw [consume, if_neg hc]
      have hj' : j < (arr.set j { tget arr j with
          amount := (tget arr j).amount - (tget arr l).amount }).length := by
        rw [List.length_set]; exact hj
      obtain ⟨ih1, ih2, ih3, ih4⟩ :=
        ih (arr.set j { tget arr j with
            amount := (tget arr j).amount - (tget arr l).amount }) hj'
          (fun x hx => hlt x (List.mem_cons_of_mem l hx)) (List.nodup_cons.mp hnd).2
      have hja : (tget (arr.set j { tget arr j with
          amount := (tget arr j).amount - (tget arr l).amount }) j).amount
            = (tget arr j).amount - (tget arr l).amount := by
        rw [tget_set_self arr j _ hj]
      have hmap : rest.map (tget (arr.set j { tget arr j with
          amount := (tget arr j).amount - (tget arr l).amount })) = rest.map (tget arr) :=
        List.map_congr_left (fun x hx =>
          tget_set_ne arr j x _ (fun h => (Nat.ne_of_lt (hlt x (List.mem_cons_of_mem l hx))) (h.symm)))
      refine ⟨by rw [ih1, List.length_set], ?_, ?_, ih4.trans (List.suffix_cons l rest)⟩
      · rw [ih2, hja, hmap, List.map_cons, codeSell, if_neg hc]
      · intro i hi hij
        rw [ih3 i (fun h => hi (List.mem_cons_of_mem l h)) hij,
          tget_set_ne arr j i _ (fun h => hij h.symm)]

/-- One more processed event extends the stateless FIFO fold by one step. -/
lemma fifoLots_take_succ (trades : List Trade) (m : ℕ) (h : m < trades.length) :
    fifoLots (trades.take (m + 1)) = applyTrade (fifoLots (trades.take m)) (tget trades m) := by
  have h1 : trades.take (m + 1) = trades.take m ++ [trades.get ⟨m, h⟩] := by
    rw [List.take_succ, List.getElem?_eq_getElem h]
    simp [List.get_eq_getElem]
  rw [h1, fifoLots, fifoLots, List.foldl_append, List.foldl_cons, List.foldl_nil,
    tget_eq_get trades m h]

/-- Invariant of the per-symbol event loop after `m` events: the store keeps
its length, positions not yet processed are untouched, the open-lot indices
point below `m` and are distinct, and their dereferenced values are exactly
the stateless FIFO fold of the first `m` events. -/
lemma processRange_inv (trades : List Trade) :
    ∀ m, m ≤ trades.length →
      ((List.range m).foldl processStep (trades, [])).1.length = trades.length ∧
      (∀ i, m ≤ i → tget ((List.range m).foldl processStep (trades, [])).1 i = tget trades i) ∧
      (∀ l ∈ ((List.range m).foldl processStep (trades, [])).2, l < m) ∧
      ((List.range m).foldl processStep (trades, [])).2.Nodup ∧
      ((List.range m).foldl processStep (trades, [])).2.map
          (tget ((List.range m).foldl processStep (trades, [])).1)
        = fifoLots (trades.take m) := by
  intro m
  induction m with
  | zero =>
    intro _
    exact ⟨rfl, fun _ _ => rfl, fun l hl => absurd hl (List.not_mem_nil l), List.nodup_nil, rfl⟩
  | succ m ih =>
    intro hm
    have hmlt : m < trades.length := Nat.lt_of_succ_le hm
    obtain ⟨ih1, ih2, ih3, ih4, ih5⟩ := ih (le_of_lt hmlt)
    have hgoal : (List.range (m + 1)).foldl processStep (trades, [])
        = processStep ((List.range m).foldl processStep (trades, [])) m := by
      rw [List.range_succ, List.foldl_append, List.foldl_cons, List.foldl_nil]
    rw [hgoal]
    have htm : tget ((List.range m).foldl processStep (trades, [])).1 m = tget trades m :=
      ih2 m le_rfl
    have hnotm : m ∉ ((List.range m).foldl processStep (trades, [])).2 :=
      fun hmem => absurd (ih3 m hmem) (lt_irrefl m)
    cases htype : (tget trades m).type with
    | buy =>
      have hstep : processStep ((List.range m).foldl processStep (trades, [])) m
          = (((List.range m).foldl processStep (trades, [])).1,
             ((List.range m).foldl processStep (trades, [])).2 ++ [m]) := by
        rw [processStep, htm, htype]
      rw [hstep]
      refine ⟨ih1, fun i hi => ih2 i (le_of_lt hi), ?_, ?_, ?_⟩
      · intro l hl
        rcases List.mem_append.mp hl with hl | hl
        · exact lt_trans (ih3 l hl) (Nat.lt_succ_self m)
        · rw [List.mem_singleton.mp hl]; exact Nat.lt_succ_self m
      · exact List.Nodup.append ih4 (List.nodup_singleton m)
          (fun a ha hb => hnotm ((List.mem_singleton.mp hb) ▸ ha))
      · rw [List.map_append, List.map_singleton, ih5, htm,
          fifoLots_take_succ trades m hmlt, applyTrade, htype]
    | sell =>
      have hstep : processStep ((List.range m).foldl processStep (trades, [])) m
          = consume m ((List.range m).foldl processStep (trades, [])).1
              ((List.range m).foldl processStep (trades, [])).2 := by
        rw [processStep, htm, htype]
      rw [hstep]
      have hjm : m < ((List.range m).foldl processStep (trades, [])).1.length := by
        rw [ih1]; exact hmlt
      obtain ⟨c1, c2, c3, c4⟩ :=
        consume_spec m ((List.range m).foldl processStep (trades, [])).2
          ((List.range m).foldl processStep (trades, [])).1 hjm ih3 ih4
      refine ⟨by rw [c1, ih1], ?_, ?_, ?_, ?_⟩
      · intro i hi
        have hinot : i ∉ ((List.range m).foldl processStep (trades, [])).2 :=
          fun hmem => absurd (ih3 i hmem) (not_lt.mpr (le_trans (Nat.le_succ m) hi))
        rw [c3 i hinot (fun h => absurd (h ▸ hi) (by simp)), ih2 i (le_trans (Nat.le_succ m) hi)]
      · intro l hl
        exact lt_trans (ih3 l (c4.subset hl)) (Nat.lt_succ_self m)
      · exact ih4.sublist c4.sublist
      · rw [c2, ih5, htm, fifoLots_take_succ trades m hmlt, applyTrade, htype]

/-- The open lots that `get_fifo_holdings` computes for one symbol are the
stateless FIFO fold of that symbol's trades. -/
theorem processSymbol_snd_eq_fifoLots (trades : List Trade) :
    (processSymbol trades).2 = fifoLots trades := by
  obtain ⟨_, _, _, _, h5⟩ := processRange_inv trades trades.length le_rfl
  rw [processSymbol]
  simpa [List.take_length] using h5

/-- Selling a nonnegative amount against positive lots leaves positive lots. -/
lemma codeSell_pos : ∀ (lots : List Trade) (a : ℚ),
    (∀ l ∈ lots, 0 < l.amount) → 0 ≤ a → ∀ l ∈ codeSell lots a, 0 < l.amount := by
  intro lots
  induction lots with
  | nil => intro a _ _ l hl; simp [codeSell] at hl
  | cons p r ih =>
    intro a hall ha l hl
    rw [codeSell] at hl
    by_cases hc : a < p.amount
    · rw [if_pos hc] at hl
      rcases List.mem_cons.mp hl with heq | hl
      · rw [heq]; exact sub_pos.mpr hc
      · exact hall l (List.mem_cons_of_mem p hl)
    · rw [if_neg hc] at hl
      exact ih (a - p.amount) (fun x hx => hall x (List.mem_cons_of_mem p hx))
        (sub_nonneg.mpr (not_lt.mp hc)) l hl

/-- The FIFO fold over trades with positive amounts keeps all lot amounts
positive. -/
lemma foldl_applyTrade_pos : ∀ (trades : List Trade) (lots : List Trade),
    (∀ t ∈ trades, 0 < t.amount) → (∀ l ∈ lots, 0 < l.amount) →
    ∀ l ∈ trades.foldl applyTrade lots, 0 < l.amount := by
  intro trades
  induction trades with
  | nil => intro lots _ hlots l hl; exact hlots l hl
  | cons t r ih =>
    intro lots htr hlots l hl
    rw [List.foldl_cons] at hl
    refine ih (applyTrade lots t) (fun x hx => htr x (List.mem_cons_of_mem t hx)) ?_ l hl
    intro x hx
    rw [applyTrade] at hx
    cases htype : t.type with
    | buy =>
      rw [htype] at hx
      rcases List.mem_append.mp hx with hx | hx
      · exact hlots x hx
      · rw [List.mem_singleton.mp hx]; exact htr t (List.mem_cons_self t r)
    | sell =>
      rw [htype] at hx
      exact codeSell_pos lots t.amount hlots (le_of_lt (htr t (List.mem_cons_self t r))) x hx

/-- All lots of the stateless FIFO reconstruction have positive amount when
every trade amount is positive. -/
lemma fifoLots_pos (trades : List Trade) (h : ∀ t ∈ trades, 0 < t.amount) :
    ∀ l ∈ fifoLots trades, 0 < l.amount :=
  foldl_applyTrade_pos trades [] h (fun l hl => absurd hl (List.not_mem_nil l))

/-- All `current_amount` values of the lot loop are positive when the
starting accumulator is nonnegative and all lot amounts are positive. -/
lemma divisorsList_pos : ∀ (lots : List Trade) (amt : ℚ),
    0 ≤ amt → (∀ l ∈ lots, 0 < l.amount) → ∀ q ∈ divisorsList lots amt, 0 < q := by
  intro lots
  induction lots with
  | nil => intro amt _ _ q hq; simp [divisorsList] at hq
  | cons l r ih =>
    intro amt ha hall q hq
    rw [divisorsList] at hq
    rcases List.mem_cons.mp hq with heq | hq
    · rw [heq]
      have := hall l (List.mem_cons_self l r)
      linarith
    · refine ih (amt + l.amount) ?_ (fun x hx => hall x (List.mem_cons_of_mem l hx)) q hq
      have := hall l (List.mem_cons_self l r)
      linarith

/-- C10: if every trade amount of the input history is positive, then every
lot of the reconstructed holdings has positive amount, and every value of
`current_amount` that the lot loop of the search divides by on that symbol's
lots (the entries of `divisorsList lots 0`) is strictly positive — the
division-by-zero branch is unreachable. -/
theorem C10_division_safety :
    ∀ (data : List (String × SymbolData)),
      (∀ e ∈ data, ∀ t ∈ e.2.trades, 0 < t.amount) →
      ∀ e ∈ (get_fifo_holdings data).2,
        (∀ l ∈ e.2, 0 < l.amount) ∧ (∀ q ∈ divisorsList e.2 0, 0 < q) := by
  intro data hdata e he
  rw [get_fifo_holdings] at he
  obtain ⟨a, ha, hfa⟩ := List.mem_filterMap.mp he
  by_cases hempty : (processSymbol a.2.trades).2 = []
  · rw [hempty] at hfa; simp at hfa
  · rw [if_neg hempty] at hfa
    have he2 : e.2 = (processSymbol a.2.trades).2 := by
      rw [← Option.some.inj hfa]
    have hpos : ∀ l ∈ e.2, 0 < l.amount := by
      rw [he2, processSymbol_snd_eq_fifoLots]
      exact fifoLots_pos a.2.trades (hdata a ha)
    exact ⟨hpos, divisorsList_pos e.2 0 le_rfl hpos⟩

/-- C10 witness: on `dataC9` every trade amount is positive, and the single
reconstructed lot (6 units) gives the positive divisor 6. -/
theorem C10_witness :
    (∀ l ∈ [(⟨TradeType.buy, 6, 100⟩ : Trade)], 0 < l.amount) ∧
    (∀ q ∈ divisorsList [⟨TradeType.buy, 6, 100⟩] 0, 0 < q) :=
  C10_division_safety dataC9 (by norm_num [dataC9])
    ("S", [⟨TradeType.buy, 6, 100⟩])
    (by
      norm_num [get_fifo_holdings, processSymbol, processStep, consume, tget, dataC9,
        List.range_succ, List.range_zero, List.foldl_append, List.filterMap_cons])

/-- The code's sell consumption coincides with the spec's oldest-first
consumption on positive lots and a nonnegative sell amount. -/
lemma codeSell_eq_specSell : ∀ (lots : List Trade) (a : ℚ),
    (∀ l ∈ lots, 0 < l.amount) → 0 ≤ a → codeSell lots a = specSell lots a := by
  intro lots
  induction lots with
  | nil => intro a _ _; rfl
  | cons l r ih =>
    intro a hall ha
    rw [codeSell, specSell]
    by_cases h0 : a ≤ 0
    · have ha0 : a = 0 := le_antisymm h0 ha
      rw [if_pos h0, if_pos (show a < l.amount from ha0 ▸ hall l (List.mem_cons_self l r)), ha0]
      show ({ l with amount := l.amount - 0 } : Trade) :: r = l :: r
      rw [sub_zero]
    · by_cases hc : l.amount ≤ a
      · rw [if_neg h0, if_pos hc, if_neg (not_lt.mpr hc)]
        exact ih (a - l.amount) (fun x hx => hall x (List.mem_cons_of_mem l hx))
          (sub_nonneg.mpr hc)
      · rw [if_neg h0, if_neg hc, if_pos (not_le.mp hc)]

/-- One code step equals one spec step on positive lots and a positive trade
amount. -/
lemma applyTrade_eq_specApply (lots : List Trade) (t : Trade)
    (hl : ∀ l ∈ lots, 0 < l.amount) (ht : 0 ≤ t.amount) :
    applyTrade lots t = specApply lots t := by
  rw [applyTrade, specApply]
  cases t.type with
  | buy => rfl
  | sell => exact codeSell_eq_specSell lots t.amount hl ht

/-- One step preserves lot positivity. -/
lemma applyTrade_pos (lots : List Trade) (t : Trade)
    (hl : ∀ l ∈ lots, 0 < l.amount) (ht : 0 < t.amount) :
    ∀ l ∈ applyTrade lots t, 0 < l.amount := by
  intro x hx
  rw [applyTrade] at hx
  cases htype : t.type with
  | buy =>
    rw [htype] at hx
    rcases List.mem_append.mp hx with hx | hx
    · exact hl x hx
    · rw [List.mem_singleton.mp hx]; exact ht
  | sell =>
    rw [htype] at hx
    exact codeSell_pos lots t.amount hl (le_of_lt ht) x hx

/-- The code's FIFO fold equals the spec's FIFO fold on histories with
positive trade amounts. -/
lemma foldl_applyTrade_eq_spec : ∀ (trades : List Trade) (lots : List Trade),
    (∀ t ∈ trades, 0 < t.amount) → (∀ l ∈ lots, 0 < l.amount) →
    trades.foldl applyTrade lots = trades.foldl specApply lots := by
  intro trades
  induction trades with
  | nil => intro lots _ _; rfl
  | cons t r ih =>
    intro lots htr hlots
    rw [List.foldl_cons, List.foldl_cons,
      ← applyTrade_eq_specApply lots t hlots (le_of_lt (htr t (List.mem_cons_self t r)))]
    exact ih (applyTrade lots t) (fun x hx => htr x (List.mem_cons_of_mem t hx))
      (applyTrade_pos lots t hlots (htr t (List.mem_cons_self t r)))

/-- The code's per-symbol reconstruction equals the spec-modelled one on
histories with positive trade amounts. -/
theorem fifoLots_eq_specLots (trades : List Trade) (h : ∀ t ∈ trades, 0 < t.amount) :
    fifoLots trades = specLots trades :=
  foldl_applyTrade_eq_spec trades [] h (fun l hl => absurd hl (List.not_mem_nil l))

/-- Selling a feasible amount removes exactly that amount from the lots. -/
lemma lotSum_codeSell : ∀ (lots : List Trade) (a : ℚ),
    0 ≤ a → a ≤ lotSum lots → lotSum (codeSell lots a) = lotSum lots - a := by
  intro lots
  induction lots with
  | nil =>
    intro a ha hle
    have : a = 0 := le_antisymm (by simpa [lotSum] using hle) ha
    simp [codeSell, lotSum, this]
  | cons l r ih =>
    intro a ha hle
    rw [codeSell]
    by_cases hc : a < l.amount
    · rw [if_pos hc]
      simp only [lotSum, List.map_cons, List.sum_cons]
      ring
    · rw [if_neg hc]
      have hc' : l.amount ≤ a := not_lt.mp hc
      have hle' : a - l.amount ≤ lotSum r := by
        simp only [lotSum, List.map_cons, List.sum_cons] at hle ⊢
        linarith
      rw [ih (a - l.amount) (sub_nonneg.mpr hc') hle']
      simp only [lotSum, List.map_cons, List.sum_cons]
      ring

/-- Conservation: over a feasible history with nonnegative amounts, the held
total is the initial total plus all buys minus all sells. -/
lemma lotSum_foldl : ∀ (trades : List Trade) (lots : List Trade),
    (∀ t ∈ trades, 0 ≤ t.amount) →
    feasibleRun trades (lotSum lots) = true →
    lotSum (trades.foldl applyTrade lots)
      = lotSum lots + totalBuys trades - totalSells trades := by
  intro trades
  induction trades with
  | nil => intro lots _ _; simp [totalBuys, totalSells]
  | cons t r ih =>
    intro lots hnn hf
    rw [feasibleRun] at hf
    rw [List.foldl_cons, totalBuys, totalSells]
    cases htype : t.type with
    | buy =>
      rw [htype] at hf
      have hstep : applyTrade lots t = lots ++ [t] := by rw [applyTrade, htype]
      have hsum : lotSum (lots ++ [t]) = lotSum lots + t.amount := by
        simp [lotSum]
      rw [hstep, ih (lots ++ [t]) (fun x hx => hnn x (List.mem_cons_of_mem t hx))
        (by rw [hsum]; exact hf), hsum]
      simp only [reduceIte]
      rw [if_neg (by simp : ¬ (TradeType.buy = TradeType.sell))]
      ring
    | sell =>
      rw [htype] at hf
      rw [Bool.and_eq_true, decide_eq_true_eq] at hf
      have hstep : applyTrade lots t = codeSell lots t.amount := by rw [applyTrade, htype]
      have hsum : lotSum (codeSell lots t.amount) = lotSum lots - t.amount :=
        lotSum_codeSell lots t.amount (hnn t (List.mem_cons_self t r)) hf.1
      rw [hstep, ih (codeSell lots t.amount) (fun x hx => hnn x (List.mem_cons_of_mem t hx))
        (by rw [hsum]; exact hf.2), hsum]
      simp only [reduceIte]
      rw [if_neg (by simp : ¬ (TradeType.sell = TradeType.buy))]
      ring

/-- A list of positive lots with total zero is empty. -/
lemma lotSum_zero_imp_nil (lots : List Trade) (hpos : ∀ l ∈ lots, 0 < l.amount)
    (hz : lotSum lots = 0) : lots = [] := by
  cases lots with
  | nil => rfl
  | cons l r =>
    exfalso
    have h1 : 0 < l.amount := hpos l (List.mem_cons_self l r)
    have h2 : 0 ≤ lotSum r := by
      have : ∀ x ∈ r, 0 ≤ x.amount :=
        fun x hx => le_of_lt (hpos x (List.mem_cons_of_mem l hx))
      calc (0:ℚ) ≤ (r.map (fun t => t.amount)).sum := by
            refine List.sum_nonneg ?_
            intro q hq
            obtain ⟨x, hx, hqx⟩ := List.mem_map.mp hq
            rw [← hqx]; exact this x hx
        _ = lotSum r := rfl
    simp only [lotSum, List.map_cons, List.sum_cons] at hz
    have : lotSum r = (r.map (fun t => t.amount)).sum := rfl
    linarith [hz]

/-- C6: for trade histories with positive trade amounts, the Holdings
Reconstructor is exactly the spec's oldest-first FIFO consumption — its
holdings mapping lists, in input order, each symbol's spec-modelled remaining
lots, omitting symbols with none (first conjunct); under the feasibility
precondition, a symbol whose sells total exactly its buys has no remaining
lots, hence is absent (second conjunct); and no symbol maps to an empty lot
sequence (third conjunct). -/
theorem C6_fifo_oldest_first :
    ∀ (data : List (String × SymbolData)),
      (∀ e ∈ data, ∀ t ∈ e.2.trades, 0 < t.amount) →
      ((get_fifo_holdings data).2
          = data.filterMap (fun e =>
              if specLots e.2.trades = [] then none
              else some (e.1, specLots e.2.trades))) ∧
      (∀ e ∈ data, feasibleRun e.2.trades 0 = true →
          totalSells e.2.trades = totalBuys e.2.trades →
          specLots e.2.trades = []) ∧
      (∀ p ∈ (get_fifo_holdings data).2, p.2 ≠ []) := by
  intro data hdata
  have hentry : ∀ e ∈ data, (processSymbol e.2.trades).2 = specLots e.2.trades := by
    intro e he
    rw [processSymbol_snd_eq_fifoLots, fifoLots_eq_specLots e.2.trades (hdata e he)]
  refine ⟨?_, ?_, ?_⟩
  · rw [get_fifo_holdings]
    exact List.filterMap_congr (fun e he => by simp only [hentry e he])
  · intro e he hf hsum
    have hpos := hdata e he
    rw [← fifoLots_eq_specLots e.2.trades hpos]
    refine lotSum_zero_imp_nil (fifoLots e.2.trades) (fifoLots_pos e.2.trades hpos) ?_
    have hzero : lotSum ([] : List Trade) = 0 := rfl
    have h2 : lotSum (fifoLots e.2.trades)
        = lotSum ([] : List Trade) + totalBuys e.2.trades - totalSells e.2.trades := by
      refine lotSum_foldl e.2.trades [] (fun t ht => le_of_lt (hpos t ht)) ?_
      rw [hzero]
      exact hf
    rw [fifoLots] at h2 ⊢
    rw [h2, hsum, hzero]
    ring
  · intro p hp
    rw [get_fifo_holdings] at hp
    obtain ⟨a, _, hfa⟩ := List.mem_filterMap.mp hp
    by_cases hempty : (processSymbol a.2.trades).2 = []
    · simp [hempty] at hfa
    · rw [if_neg hempty] at hfa
      rw [← Option.some.inj hfa]
      exact hempty

/-- C6 witness: on `dataC6W`, selling 12 units consumes the 10-unit lot
entirely and reduces the 5-unit lot to 3 units, so the reconstructed holdings
are the single 3-unit lot at unit price 120. -/
theorem C6_witness :
    (get_fifo_holdings dataC6W).2 = [("S", [⟨TradeType.buy, 3, 120⟩])] :=
  ((C6_fifo_oldest_first dataC6W (by norm_num [dataC6W])).1).trans
    (by norm_num [dataC6W, specLots, specApply, specSell, List.filterMap_cons])

/-- Characterization of the selection loop: it either leaves its accumulator
alone, or it answers with the record of some qualifying proposal (at absolute
index `n`, where scanning started at index `i`). -/
lemma refineScanGo_cases : ∀ (sol : List TradeProposal) (d : ℚ) (i : ℕ) (acc : ℚ × ℚ × ℤ),
    refineScanGo sol d i acc = acc ∨
    ∃ (n : ℕ) (t : TradeProposal), sol.get? (n - i) = some t ∧ i ≤ n ∧
      d < t.last_buy_taxable_profit ∧
      refineScanGo sol d i acc
        = (d / t.last_buy_taxable_profit * t.last_buy_volume,
           d / t.last_buy_taxable_profit, (n : ℤ)) := by
  intro sol
  induction sol with
  | nil => intro d i acc; left; rfl
  | cons t r ih =>
    intro d i acc
    simp only [refineScanGo]
    by_cases hq : d < t.last_buy_taxable_profit
    · rw [if_pos hq]
      by_cases hb : acc.1 < d / t.last_buy_taxable_profit * t.last_buy_volume
      · rw [if_pos hb]
        rcases ih d (i + 1)
            (d / t.last_buy_taxable_profit * t.last_buy_volume,
             d / t.last_buy_taxable_profit, (i : ℤ)) with h | ⟨n, t', hget, hin, hq', hres⟩
        · right
          exact ⟨i, t, by simp, le_rfl, hq, by rw [h]⟩
        · right
          refine ⟨n, t', ?_, le_trans (Nat.le_succ i) hin, hq', hres⟩
          have hni : n - i = (n - (i + 1)) + 1 := by omega
          rw [hni, List.get?_cons_succ]
          exact hget
      · rw [if_neg hb]
        rcases ih d (i + 1) acc with h | ⟨n, t', hget, hin, hq', hres⟩
        · left; exact h
        · right
          refine ⟨n, t', ?_, le_trans (Nat.le_succ i) hin, hq', hres⟩
          have hni : n - i = (n - (i + 1)) + 1 := by omega
          rw [hni, List.get?_cons_succ]
          exact hget
    · rw [if_neg hq]
      rcases ih d (i + 1) acc with h | ⟨n, t', hget, hin, hq', hres⟩
      · left; exact h
      · right
        refine ⟨n, t', ?_, le_trans (Nat.le_succ i) hin, hq', hres⟩
        have hni : n - i = (n - (i + 1)) + 1 := by omega
        rw [hni, List.get?_cons_succ]
        exact hget

/-- The best volume reduction never decreases through the selection loop. -/
lemma refineScanGo_fst_le : ∀ (sol : List TradeProposal) (d : ℚ) (i : ℕ) (acc : ℚ × ℚ × ℤ),
    acc.1 ≤ (refineScanGo sol d i acc).1 := by
  intro sol
  induction sol with
  | nil => intro d i acc; exact le_rfl
  | cons t r ih =>
    intro d i acc
    simp only [refineScanGo]
    by_cases hq : d < t.last_buy_taxable_profit
    · rw [if_pos hq]
      by_cases hb : acc.1 < d / t.last_buy_taxable_profit * t.last_buy_volume
      · rw [if_pos hb]
        exact le_trans (le_of_lt hb)
          (ih d (i + 1) (d / t.last_buy_taxable_profit * t.last_buy_volume,
            d / t.last_buy_taxable_profit, (i : ℤ)))
      · rw [if_neg hb]; exact ih d (i + 1) acc
    · rw [if_neg hq]; exact ih d (i + 1) acc

/-- The final best volume reduction is at least the reduction of every
qualifying proposal. -/
lemma refineScanGo_ge_qual : ∀ (sol : List TradeProposal) (d : ℚ) (i : ℕ) (acc : ℚ × ℚ × ℤ)
    (t : TradeProposal), t ∈ sol → d < t.last_buy_taxable_profit →
    d / t.last_buy_taxable_profit * t.last_buy_volume ≤ (refineScanGo sol d i acc).1 := by
  intro sol
  induction sol with
  | nil => intro d i acc t ht; exact absurd ht (List.not_mem_nil t)
  | cons p r ih =>
    intro d i acc t ht hq
    rcases List.mem_cons.mp ht with heq | hmem
    · subst heq
      simp only [refineScanGo, if_pos hq]
      by_cases hb : acc.1 < d / t.last_buy_taxable_profit * t.last_buy_volume
      · rw [if_pos hb]
        exact refineScanGo_fst_le r d (i + 1) _
      · rw [if_neg hb]
        exact le_trans (not_lt.mp hb) (refineScanGo_fst_le r d (i + 1) acc)
    · simp only [refineScanGo]
      by_cases hq' : d < p.last_buy_taxable_profit
      · rw [if_pos hq']
        by_cases hb : acc.1 < d / p.last_buy_taxable_profit * p.last_buy_volume
        · rw [if_pos hb]; exact ih d (i + 1) _ t hmem hq
        · rw [if_neg hb]; exact ih d (i + 1) acc t hmem hq
      · rw [if_neg hq']; exact ih d (i + 1) acc t hmem hq

/-- Refinement of a nonempty solution always answers. -/
lemma refine_solution_ne_nil (sol : List TradeProposal) (d : ℚ) (h : sol ≠ []) :
    ∃ refined, refine_solution sol d = some refined := by
  cases sol with
  | nil => exact absurd rfl h
  | cons p r => exact ⟨_, rfl⟩

/-- `applyAt` keeps the length. -/
lemma applyAt_length : ∀ (sol : List TradeProposal) (n : ℕ) (prop : ℚ),
    (applyAt sol n prop).length = sol.length := by
  intro sol
  induction sol with
  | nil => intro n prop; rfl
  | cons p r ih =>
    intro n prop
    cases n with
    | zero => rfl
    | succ m => simp only [applyAt, List.length_cons, ih m prop]

/-- `applyAt` keeps the symbols. -/
lemma applyAt_symbols : ∀ (sol : List TradeProposal) (n : ℕ) (prop : ℚ),
    (applyAt sol n prop).map (fun p => p.symbol) = sol.map (fun p => p.symbol) := by
  intro sol
  induction sol with
  | nil => intro n prop; rfl
  | cons p r ih =>
    intro n prop
    cases n with
    | zero => simp [applyAt, updateProposal]
    | succ m => simp only [applyAt, List.map_cons, ih m prop]

/-- Updating position `n` with proportion `prop` lowers the taxable-profit
total by that proposal's marginal taxable profit times `prop`. -/
lemma applyAt_sum_taxable : ∀ (sol : List TradeProposal) (n : ℕ) (prop : ℚ)
    (t : TradeProposal), sol.get? n = some t →
    ((applyAt sol n prop).map (fun p => p.taxable_profit)).sum
      = (sol.map (fun p => p.taxable_profit)).sum - t.last_buy_taxable_profit * prop := by
  intro sol
  induction sol with
  | nil => intro n prop t h; simp at h
  | cons p r ih =>
    intro n prop t h
    cases n with
    | zero =>
      rw [List.get?_cons_zero, Option.some.injEq] at h
      subst h
      simp only [applyAt, updateProposal, List.map_cons, List.sum_cons]
      ring
    | succ m =>
      rw [List.get?_cons_succ] at h
      simp only [applyAt, List.map_cons, List.sum_cons, ih m prop t h]
      ring

/-- Exactness of refinement: whenever a qualifying proposal with positive
marginal volume exists (or the overshoot is zero), `refine_solution` lowers
the total taxable profit by exactly the overshoot, and keeps the length. -/
lemma refine_taxable_sum : ∀ (sol refined : List TradeProposal) (d : ℚ),
    refine_solution sol d = some refined → 0 ≤ d →
    (d = 0 ∨ ∃ t ∈ sol, d < t.last_buy_taxable_profit ∧ 0 < t.last_buy_volume) →
    ((refined.map (fun p => p.taxable_profit)).sum
        = (sol.map (fun p => p.taxable_profit)).sum - d) ∧
    refined.length = sol.length := by
  intro sol refined d hr hd hq
  cases sol with
  | nil => simp [refine_solution] at hr
  | cons p r =>
    simp only [refine_solution, refineScan] at hr
    rcases refineScanGo_cases (p :: r) d 0 (0, 0, -1) with hcase | ⟨n, t, hget, _, htq, hres⟩
    · rw [hcase] at hr
      norm_num at hr
      rw [applyAt_zero] at hr
      subst hr
      rcases eq_or_lt_of_le hd with hd0 | hdpos
      · exact ⟨by rw [← hd0]; ring, rfl⟩
      · exfalso
        rcases hq with hq0 | ⟨t, ht, htq, htv⟩
        · exact absurd hq0.symm (ne_of_lt hdpos)
        · have hred : 0 < d / t.last_buy_taxable_profit * t.last_buy_volume :=
            mul_pos (div_pos hdpos (lt_of_le_of_lt hd htq)) htv
          have := refineScanGo_ge_qual (p :: r) d 0 (0, 0, -1) t ht htq
          rw [hcase] at this
          exact absurd (lt_of_lt_of_le hred this) (lt_irrefl 0)
    · rw [hres] at hr
      have hlb : (0:ℚ) < t.last_buy_taxable_profit := lt_of_le_of_lt hd htq
      norm_num at hr
      rw [if_neg (not_lt.mpr (Int.natCast_nonneg n))] at hr
      rw [Nat.sub_zero] at hget
      rw [← hr]
      constructor
      · rw [applyAt_sum_taxable (p :: r) n (d / t.last_buy_taxable_profit) t hget,
          mul_comm, div_mul_cancel₀ d (ne_of_gt hlb)]
      · exact applyAt_length (p :: r) n (d / t.last_buy_taxable_profit)

/-- With `allowed_trades = 1` (`deeper = false`) the lot loop either runs to
the end leaving best and stack untouched, or fires the goal check and returns
the refined stack, whose taxable total is the stack's total plus exactly the
remaining need and whose length grew by one.  The last hypothesis is the loop
invariant: the taxable profit of the accumulated prefix is below the
remaining need. -/
lemma lotLoop_shallow
    (recur : ℕ → ℚ → List TradeProposal → Option (ℚ × List TradeProposal) × List TradeProposal)
    (price tfv : ℚ) (sym : String) (nextIndex : ℕ) (left : ℚ) :
    ∀ (lots : List Trade) (bv amt : ℚ) (best : ℚ × List TradeProposal)
      (stack : List TradeProposal),
      0 < left → tfv ≤ 1 → 0 < price →
      (∀ l ∈ lots, 0 < l.amount) → 0 ≤ amt →
      (amt * price - bv) * (1 - tfv) < left →
      (∀ v s st, lotLoop recur false price tfv sym nextIndex left lots bv amt best stack
          = LoopRes.done v s st → v = best.1 ∧ s = best.2 ∧ st = stack) ∧
      (∀ v s st, lotLoop recur false price tfv sym nextIndex left lots bv amt best stack
          = LoopRes.early v s st →
            s = st ∧
            (s.map (fun p => p.taxable_profit)).sum
              = (stack.map (fun p => p.taxable_profit)).sum + left ∧
            s.length = stack.length + 1) := by
  intro lots
  induction lots with
  | nil =>
    intro bv amt best stack _ _ _ _ _ _
    constructor
    · intro v s st heq
      rw [lotLoop] at heq
      injection heq with h1 h2 h3
      exact ⟨h1.symm, h2.symm, h3.symm⟩
    · intro v s st heq
      rw [lotLoop] at heq
      simp at heq
  | cons lot rest ih =>
    intro bv amt best stack hleft htf hprice hpos hamt hinv
    have hlot : 0 < lot.amount := hpos lot (List.mem_cons_self lot rest)
    have hamt2 : 0 < amt + lot.amount := add_pos_of_nonneg_of_pos hamt hlot
    simp only [lotLoop]
    by_cases hm : (bv + lot.amount * lot.unit_price) / (amt + lot.amount) < price
    · rw [if_pos hm]
      by_cases hg : left ≤ ((amt + lot.amount) * price - (bv + lot.amount * lot.unit_price)) * (1 - tfv)
      · rw [if_pos hg]
        obtain ⟨refined, href⟩ := refine_solution_ne_nil
          (stack ++ [(⟨sym, amt + lot.amount,
            (amt + lot.amount) * price - (bv + lot.amount * lot.unit_price),
            ((amt + lot.amount) * price - (bv + lot.amount * lot.unit_price)) * (1 - tfv),
            (amt + lot.amount) * price,
            lot.amount,
            lot.amount * (price - lot.unit_price),
            lot.amount * (price - lot.unit_price) * (1 - tfv),
            lot.amount * price⟩ : TradeProposal)])
          (((amt + lot.amount) * price - (bv + lot.amount * lot.unit_price)) * (1 - tfv) - left)
          (by simp)
        rw [href]
        have hd : 0 ≤ ((amt + lot.amount) * price - (bv + lot.amount * lot.unit_price)) * (1 - tfv) - left := by
          linarith
        have hsum := refine_taxable_sum _ refined _ href hd ?_
        · constructor
          · intro v s st heq; simp at heq
          · intro v s st heq
            injection heq with h1 h2 h3
            subst h2; subst h3
            refine ⟨rfl, ?_, ?_⟩
            · rw [hsum.1]
              simp only [List.map_append, List.map_cons, List.map_nil, List.sum_append,
                List.sum_cons, List.sum_nil]
              ring
            · rw [hsum.2, List.length_append, List.length_cons, List.length_nil]
        · rcases eq_or_lt_of_le hd with hd0 | hdpos
          · left; exact hd0.symm
          · right
            refine ⟨_, List.mem_append_right stack (List.mem_singleton_self _), ?_, ?_⟩
            · show _ - left < lot.amount * (price - lot.unit_price) * (1 - tfv)
              have hiden : ((amt + lot.amount) * price - (bv + lot.amount * lot.unit_price)) * (1 - tfv)
                  - lot.amount * (price - lot.unit_price) * (1 - tfv)
                  = (amt * price - bv) * (1 - tfv) := by ring
              linarith
            · show (0:ℚ) < lot.amount * price
              exact mul_pos hlot hprice
      · rw [if_neg hg]
        rw [if_neg (by simp : ¬ (false = true))]
        rw [List.dropLast_concat]
        exact ih (bv + lot.amount * lot.unit_price) (amt + lot.amount) best stack hleft htf
          hprice (fun l hl => hpos l (List.mem_cons_of_mem lot hl)) (le_of_lt hamt2)
          (not_le.mp hg)
    · rw [if_neg hm]
      have h1 : (amt + lot.amount) * price - (bv + lot.amount * lot.unit_price) ≤ 0 := by
        have h2 := (le_div_iff₀ hamt2).mp (not_lt.mp hm)
        nlinarith
      have hinv' : ((amt + lot.amount) * price - (bv + lot.amount * lot.unit_price)) * (1 - tfv) < left := by
        nlinarith
      exact ih (bv + lot.amount * lot.unit_price) (amt + lot.amount) best stack hleft htf
        hprice (fun l hl => hpos l (List.mem_cons_of_mem lot hl)) (le_of_lt hamt2) hinv'

/-- With `deeper = false` and the sentinel best, the symbol loop either
returns nothing with the stack untouched, or returns (and leaves on the
stack) a refined solution with taxable total `stack + left` and one more
proposal than the stack. -/
lemma symLoop_shallow
    (recur : ℕ → ℚ → List TradeProposal → Option (ℚ × List TradeProposal) × List TradeProposal)
    (prices tf : String → ℚ) (left : ℚ) :
    ∀ (entries : List (String × List Trade)) (symIndex : ℕ) (stack : List TradeProposal)
      (res : Option (ℚ × List TradeProposal)) (st : List TradeProposal),
      0 < left →
      (∀ e ∈ entries, 0 < prices e.1) →
      (∀ e ∈ entries, tf e.1 ≤ 1) →
      (∀ e ∈ entries, ∀ l ∈ e.2, 0 < l.amount) →
      symLoop recur false prices tf left entries symIndex (INFINITY, []) stack = (res, st) →
      (res = none ∧ st = stack) ∨
      (∃ v s, res = some (v, s) ∧ st = s ∧
        (s.map (fun p => p.taxable_profit)).sum
          = (stack.map (fun p => p.taxable_profit)).sum + left ∧
        s.length = stack.length + 1) := by
  intro entries
  induction entries with
  | nil =>
    intro symIndex stack res st hleft _ _ _ heq
    rw [symLoop, if_neg (lt_irrefl INFINITY)] at heq
    injection heq with h1 h2
    left
    exact ⟨h1.symm, h2.symm⟩
  | cons e rest ih =>
    intro symIndex stack res st hleft hpr htf hlots heq
    obtain ⟨sym, lots⟩ := e
    rw [symLoop] at heq
    have hsh := lotLoop_shallow recur (prices sym) (tf sym) sym (symIndex + 1) left lots 0 0
      (INFINITY, []) stack hleft
      (htf (sym, lots) (List.mem_cons_self _ _))
      (hpr (sym, lots) (List.mem_cons_self _ _))
      (fun l hl => hlots (sym, lots) (List.mem_cons_self _ _) l hl)
      le_rfl (by norm_num [hleft])
    cases hloop : lotLoop recur false (prices sym) (tf sym) sym (symIndex + 1) left lots 0 0
        (INFINITY, []) stack with
    | early v s stk =>
      rw [hloop] at heq
      obtain ⟨hs, hsum, hlen⟩ := hsh.2 v s stk hloop
      injection heq with h1 h2
      right
      refine ⟨v, s, h1.symm, ?_, hsum, hlen⟩
      rw [← h2, hs]
    | done bv bs stk =>
      rw [hloop] at heq
      obtain ⟨hbv, hbs, hstk⟩ := hsh.1 bv bs stk hloop
      rw [hbv, hbs, hstk] at heq
      exact ih (symIndex + 1) stack res st hleft
        (fun x hx => hpr x (List.mem_cons_of_mem _ hx))
        (fun x hx => htf x (List.mem_cons_of_mem _ hx))
        (fun x hx => hlots x (List.mem_cons_of_mem _ hx)) heq

/-- The count-1 search either finds nothing and restores the stack, or
returns a single extra refined proposal whose taxable total adds exactly the
remaining need to the stack's total. -/
lemma backtrack_one (ctx : SearchCtx) (left : ℚ) (index : ℕ)
    (stack : List TradeProposal) (res : Option (ℚ × List TradeProposal))
    (st : List TradeProposal)
    (hleft : 0 < left)
    (hpr : ∀ e ∈ ctx.holdings, 0 < ctx.prices e.1)
    (htf : ∀ e ∈ ctx.holdings, ctx.tf e.1 ≤ 1)
    (hlots : ∀ e ∈ ctx.holdings, ∀ l ∈ e.2, 0 < l.amount)
    (heq : backtrack ctx 1 index left stack = (res, st)) :
    (res = none ∧ st = stack) ∨
    (∃ v s, res = some (v, s) ∧ st = s ∧
      (s.map (fun p => p.taxable_profit)).sum
        = (stack.map (fun p => p.taxable_profit)).sum + left ∧
      s.length = stack.length + 1) := by
  rw [show (1 : ℕ) = 0 + 1 from rfl, backtrack] at heq
  by_cases hidx : ctx.holdings.length < index
  · rw [if_pos hidx] at heq
    injection heq with h1 h2
    left
    exact ⟨h1.symm, h2.symm⟩
  · rw [if_neg hidx] at heq
    refine symLoop_shallow _ ctx.prices ctx.tf left (ctx.holdings.drop index) index stack res st
      hleft ?_ ?_ ?_ heq
    · exact fun e he => hpr e (List.drop_subset index ctx.holdings he)
    · exact fun e he => htf e (List.drop_subset index ctx.holdings he)
    · exact fun e he => hlots e (List.drop_subset index ctx.holdings he)

/-- The driver never answers with a smaller count than it started at. -/
lemma searchFrom_le (ctx : SearchCtx) (desired : ℚ) :
    ∀ (fuel k0 k : ℕ) (v : ℚ) (sol : List TradeProposal),
      searchFrom ctx desired k0 fuel = some (k, v, sol) → k0 ≤ k := by
  intro fuel
  induction fuel with
  | zero => intro k0 k v sol h; simp [searchFrom] at h
  | succ n ih =>
    intro k0 k v sol h
    rw [searchFrom] at h
    cases hb : (backtrack ctx k0 0 desired []).1 with
    | some r =>
      rw [hb] at h
      simp only [Option.some.injEq, Prod.mk.injEq] at h
      omega
    | none =>
      rw [hb] at h
      exact le_trans (Nat.le_succ k0) (ih (k0 + 1) k v sol h)

/-- C2 (amended): refinement removes exactly the overshoot, so a solution
returned at trade count 1 — where the goal check always fires over a stack
holding only the current proposal — has total taxable profit exactly equal to
the requested target (positive target, positive prices and lot amounts,
exemption rates at most 1).  For counts ≥ 2 the unrestored goal-check return
can leak proposals into the refined solution and the total can exceed the
target (see the counterexample). -/
theorem C2_amended_single_trade_exact :
    ∀ (ctx : SearchCtx) (desired : ℚ) (v : ℚ) (sol : List TradeProposal),
      0 < desired →
      (∀ e ∈ ctx.holdings, 0 < ctx.prices e.1) →
      (∀ e ∈ ctx.holdings, ctx.tf e.1 ≤ 1) →
      (∀ e ∈ ctx.holdings, ∀ l ∈ e.2, 0 < l.amount) →
      find_minimal_solution ctx desired = some (1, v, sol) →
      (sol.map (fun p => p.taxable_profit)).sum = desired := by
  intro ctx desired v sol hdes hpr htf hlots hfind
  rw [find_minimal_solution, show MAX_TRADES = 2 + 1 from rfl, searchFrom] at hfind
  cases hb : (backtrack ctx 1 0 desired []).1 with
  | some r =>
    rw [hb] at hfind
    simp only [Option.some.injEq, Prod.mk.injEq] at hfind
    obtain ⟨-, -, hsol⟩ := hfind
    rcases backtrack_one ctx desired 0 [] (backtrack ctx 1 0 desired []).1
        (backtrack ctx 1 0 desired []).2 hdes hpr htf hlots Prod.mk.eta.symm with
      ⟨hnone, -⟩ | ⟨v', s', hsome, -, hsum, -⟩
    · rw [hb] at hnone; simp at hnone
    · have hr : r = (v', s') := by
        rw [hb] at hsome
        exact Option.some.inj hsome
      rw [← hsol, hr]
      simpa using hsum
  | none =>
    rw [hb] at hfind
    have := searchFrom_le ctx desired 2 (1 + 1) 1 v sol hfind
    omega

/-- The reconstructed holdings of the spec-example context, evaluated. -/
lemma ctxC4_holdings :
    ctxC4.holdings = [("S", [⟨TradeType.buy, 10, 100⟩, ⟨TradeType.buy, 10, 120⟩])] := by
  norm_num [ctxC4, dataC4, get_fifo_holdings, processSymbol, processStep, consume, tget,
    List.range_succ, List.range_zero, List.foldl_append, List.filterMap_cons,
    show (([0, 1] : List ℕ) = []) = False by simp]

/-- The exemption rate of the spec-example context, evaluated. -/
lemma ctxC4_tf : ctxC4.tf "S" = 0 := by
  norm_num [ctxC4, dataC4, tfOf, List.find?]

/-- C2 witness: on the spec's example the single-trade solution's taxable
profits sum to exactly the target 400. -/
theorem C2_amended_witness :
    (([⟨"S", 8, 400, 400, 1200, 8, 400, 400, 1200⟩] : List TradeProposal).map
      (fun p => p.taxable_profit)).sum = 400 :=
  C2_amended_single_trade_exact ctxC4 400 1200
    [⟨"S", 8, 400, 400, 1200, 8, 400, 400, 1200⟩]
    (by norm_num)
    (by rw [ctxC4_holdings]; intro e he; norm_num [ctxC4, pricesC4])
    (by
      rw [ctxC4_holdings]
      intro e he
      simp only [List.mem_singleton] at he
      subst he
      rw [show (("S", [(⟨TradeType.buy, 10, 100⟩ : Trade), ⟨TradeType.buy, 10, 120⟩])
          : String × List Trade).1 = "S" from rfl, ctxC4_tf]
      norm_num)
    (by
      rw [ctxC4_holdings]
      intro e he
      simp only [List.mem_singleton] at he
      subst he
      norm_num)
    (by norm_num [find_minimal_solution, searchFrom, backtrack, symLoop,
      lotLoop, refine_solution, refineScan, refineScanGo, applyAt, updateProposal,
      get_fifo_holdings, processSymbol, processStep, consume, tget, tfOf,
      INFINITY, MAX_TRADES, ctxC4, dataC4, pricesC4,
      List.range_succ, List.range_zero, List.foldl_append, List.filterMap_cons,
      List.dropLast, List.sum_cons, List.sum_nil, List.find?])

/-- C3 (amended): a solution returned at trade count 1 contains exactly one
proposal (so the trade-count bound and the one-proposal-per-security
invariant hold trivially there); for counts ≥ 2 the leaked stack entries can
push the returned solution beyond the bound with repeated securities (see
the counterexample). -/
theorem C3_amended_single_trade_one_proposal :
    ∀ (ctx : SearchCtx) (desired : ℚ) (v : ℚ) (sol : List TradeProposal),
      0 < desired →
      (∀ e ∈ ctx.holdings, 0 < ctx.prices e.1) →
      (∀ e ∈ ctx.holdings, ctx.tf e.1 ≤ 1) →
      (∀ e ∈ ctx.holdings, ∀ l ∈ e.2, 0 < l.amount) →
      find_minimal_solution ctx desired = some (1, v, sol) →
      sol.length = 1 := by
  intro ctx desired v sol hdes hpr htf hlots hfind
  rw [find_minimal_solution, show MAX_TRADES = 2 + 1 from rfl, searchFrom] at hfind
  cases hb : (backtrack ctx 1 0 desired []).1 with
  | some r =>
    rw [hb] at hfind
    simp only [Option.some.injEq, Prod.mk.injEq] at hfind
    obtain ⟨-, -, hsol⟩ := hfind
    rcases backtrack_one ctx desired 0 [] (backtrack ctx 1 0 desired []).1
        (backtrack ctx 1 0 desired []).2 hdes hpr htf hlots Prod.mk.eta.symm with
      ⟨hnone, -⟩ | ⟨v', s', hsome, -, -, hlen⟩
    · rw [hb] at hnone; simp at hnone
    · have hr : r = (v', s') := by
        rw [hb] at hsome
        exact Option.some.inj hsome
      rw [← hsol, hr]
      simpa using hlen
  | none =>
    rw [hb] at hfind
    have := searchFrom_le ctx desired 2 (1 + 1) 1 v sol hfind
    omega

/-- C3 witness: the spec-example solution has exactly one proposal. -/
theorem C3_amended_witness :
    ([⟨"S", 8, 400, 400, 1200, 8, 400, 400, 1200⟩] : List TradeProposal).length = 1 :=
  C3_amended_single_trade_one_proposal ctxC4 400 1200
    [⟨"S", 8, 400, 400, 1200, 8, 400, 400, 1200⟩]
    (by norm_num)
    (by rw [ctxC4_holdings]; intro e he; norm_num [ctxC4, pricesC4])
    (by
      rw [ctxC4_holdings]
      intro e he
      simp only [List.mem_singleton] at he
      subst he
      rw [show (("S", [(⟨TradeType.buy, 10, 100⟩ : Trade), ⟨TradeType.buy, 10, 120⟩])
          : String × List Trade).1 = "S" from rfl, ctxC4_tf]
      norm_num)
    (by
      rw [ctxC4_holdings]
      intro e he
      simp only [List.mem_singleton] at he
      subst he
      norm_num)
    (by norm_num [find_minimal_solution, searchFrom, backtrack, symLoop,
      lotLoop, refine_solution, refineScan, refineScanGo, applyAt, updateProposal,
      get_fifo_holdings, processSymbol, processStep, consume, tget, tfOf,
      INFINITY, MAX_TRADES, ctxC4, dataC4, pricesC4,
      List.range_succ, List.range_zero, List.foldl_append, List.filterMap_cons,
      List.dropLast, List.sum_cons, List.sum_nil, List.find?])

/-- C7 (amended): the goal-check return does not restore the shared stack.
Whenever the first lot of the first candidate security materializes a
proposal that immediately satisfies the goal check, `_backtrack` returns with
`partial_solution` holding exactly the refined solution (the entry stack plus
the refined new proposal) — the refined list and the stack contents coincide,
because `refine_solution`'s shallow copy mutates the shared proposal dicts in
place; the stack is restored only around increments whose branches find
nothing. -/
theorem C7_amended_goal_return_stack :
    ∀ (ctx : SearchCtx) (sym : String) (lot : Trade) (lots : List Trade)
      (others : List (String × List Trade)) (a : ℕ) (left : ℚ)
      (stack : List TradeProposal),
      ctx.holdings = (sym, lot :: lots) :: others →
      (lot.amount * lot.unit_price) / lot.amount < ctx.prices sym →
      left ≤ (lot.amount * ctx.prices sym - lot.amount * lot.unit_price) * (1 - ctx.tf sym) →
      ∃ refined,
        refine_solution (stack ++ [propOf0 sym (ctx.prices sym) (ctx.tf sym) lot])
            ((lot.amount * ctx.prices sym - lot.amount * lot.unit_price) * (1 - ctx.tf sym)
              - left)
          = some refined ∧
        backtrack ctx (a + 1) 0 left stack
          = (some ((refined.map (fun t => t.volume)).sum, refined), refined) := by
  intro ctx sym lot lots others a left stack hh hm hg
  obtain ⟨refined, href⟩ := refine_solution_ne_nil
    (stack ++ [propOf0 sym (ctx.prices sym) (ctx.tf sym) lot])
    ((lot.amount * ctx.prices sym - lot.amount * lot.unit_price) * (1 - ctx.tf sym) - left)
    (by simp)
  refine ⟨refined, href, ?_⟩
  rw [backtrack, hh]
  rw [if_neg (Nat.not_lt_zero _), List.drop_zero, symLoop]
  simp only [lotLoop, zero_add]
  rw [if_pos hm, if_pos hg]
  rw [show (propOf0 sym (ctx.prices sym) (ctx.tf sym) lot) =
    (⟨sym, lot.amount,
      lot.amount * ctx.prices sym - lot.amount * lot.unit_price,
      (lot.amount * ctx.prices sym - lot.amount * lot.unit_price) * (1 - ctx.tf sym),
      lot.amount * ctx.prices sym, lot.amount,
      lot.amount * (ctx.prices sym - lot.unit_price),
      lot.amount * (ctx.prices sym - lot.unit_price) * (1 - ctx.tf sym),
      lot.amount * ctx.prices sym⟩ : TradeProposal) from rfl] at href
  rw [href]

/-- C7 witness: on the spec-example context entered with an empty stack, the
goal check fires on the first lot and `_backtrack` returns the refined
solution as the new stack content. -/
theorem C7_amended_witness :
    ∃ refined,
      refine_solution
          ([] ++ [propOf0 "S" (ctxC4.prices "S") (ctxC4.tf "S") ⟨TradeType.buy, 10, 100⟩])
          (((⟨TradeType.buy, 10, 100⟩ : Trade).amount * ctxC4.prices "S"
              - (⟨TradeType.buy, 10, 100⟩ : Trade).amount
                * (⟨TradeType.buy, 10, 100⟩ : Trade).unit_price) * (1 - ctxC4.tf "S") - 400)
        = some refined ∧
      backtrack ctxC4 (0 + 1) 0 400 []
        = (some ((refined.map (fun t => t.volume)).sum, refined), refined) :=
  C7_amended_goal_return_stack ctxC4 "S" ⟨TradeType.buy, 10, 100⟩
    [⟨TradeType.buy, 10, 120⟩] [] 0 400 []
    ctxC4_holdings
    (by norm_num [ctxC4, pricesC4])
    (by
      rw [ctxC4_tf]
      norm_num [ctxC4, pricesC4])

/-- Refinement never changes which security each proposal is for. -/
lemma refine_symbols (sol refined : List TradeProposal) (d : ℚ)
    (h : refine_solution sol d = some refined) :
    refined.map (fun p => p.symbol) = sol.map (fun p => p.symbol) := by
  cases sol with
  | nil => simp [refine_solution] at h
  | cons p r =>
    simp only [refine_solution] at h
    rw [← Option.some.inj h]
    exact applyAt_symbols (p :: r) _ _

/-- Equal symbol lists transfer the "never this security" property. -/
lemma symbols_preserved (s : String) (l1 l2 : List TradeProposal)
    (h : l1.map (fun p => p.symbol) = l2.map (fun p => p.symbol))
    (h2 : ∀ p ∈ l2, p.symbol ≠ s) : ∀ p ∈ l1, p.symbol ≠ s := by
  intro p hp
  have : p.symbol ∈ l2.map (fun p => p.symbol) := by
    rw [← h]
    exact List.mem_map_of_mem (fun p => p.symbol) hp
  obtain ⟨q, hq, hqs⟩ := List.mem_map.mp this
  rw [← hqs]
  exact h2 q hq

/-- If a security never passes the positive-profit test, the lot loop keeps
every stack, best and returned solution free of proposals for it (assuming
the recursion does). -/
lemma lotLoop_preserves (s : String)
    (recur : ℕ → ℚ → List TradeProposal → Option (ℚ × List TradeProposal) × List TradeProposal)
    (deeper : Bool) (price tfv : ℚ) (sym : String) (nextIndex : ℕ) (left : ℚ)
    (Hrec : ∀ i l st, (∀ p ∈ st, p.symbol ≠ s) →
      (∀ p ∈ (recur i l st).2, p.symbol ≠ s) ∧
      (∀ v sol, (recur i l st).1 = some (v, sol) → ∀ p ∈ sol, p.symbol ≠ s)) :
    ∀ (lots : List Trade) (bv amt : ℚ) (best : ℚ × List TradeProposal)
      (stack : List TradeProposal),
      (sym = s → noProfitRun price lots bv amt = true) →
      (∀ p ∈ stack, p.symbol ≠ s) →
      (∀ p ∈ best.2, p.symbol ≠ s) →
      (∀ v sol st, lotLoop recur deeper price tfv sym nextIndex left lots bv amt best stack
          = LoopRes.early v sol st →
          (∀ p ∈ sol, p.symbol ≠ s) ∧ (∀ p ∈ st, p.symbol ≠ s)) ∧
      (∀ v sol st, lotLoop recur deeper price tfv sym nextIndex left lots bv amt best stack
          = LoopRes.done v sol st →
          (∀ p ∈ sol, p.symbol ≠ s) ∧ (∀ p ∈ st, p.symbol ≠ s)) := by
  intro lots
  induction lots with
  | nil =>
    intro bv amt best stack _ hstack hbest
    constructor
    · intro v sol st heq
      rw [lotLoop] at heq
      simp at heq
    · intro v sol st heq
      rw [lotLoop] at heq
      injection heq with h1 h2 h3
      subst h2; subst h3
      exact ⟨hbest, hstack⟩
  | cons lot rest ih =>
    intro bv amt best stack hnp hstack hbest
    simp only [lotLoop]
    by_cases hm : (bv + lot.amount * lot.unit_price) / (amt + lot.amount) < price
    · rw [if_pos hm]
      have hsymne : sym ≠ s := by
        intro heq
        have hb := hnp heq
        rw [noProfitRun, Bool.and_eq_true] at hb
        have := hb.1
        simp only [Bool.not_eq_true', decide_eq_false_iff_not] at this
        exact this hm
      have hstack2 : ∀ p ∈ stack ++ [(⟨sym, amt + lot.amount,
          (amt + lot.amount) * price - (bv + lot.amount * lot.unit_price),
          ((amt + lot.amount) * price - (bv + lot.amount * lot.unit_price)) * (1 - tfv),
          (amt + lot.amount) * price, lot.amount,
          lot.amount * (price - lot.unit_price),
          lot.amount * (price - lot.unit_price) * (1 - tfv),
          lot.amount * price⟩ : TradeProposal)], p.symbol ≠ s := by
        intro p hp
        rcases List.mem_append.mp hp with hp | hp
        · exact hstack p hp
        · rw [List.mem_singleton.mp hp]
          exact hsymne
      by_cases hg : left ≤ ((amt + lot.amount) * price - (bv + lot.amount * lot.unit_price)) * (1 - tfv)
      · rw [if_pos hg]
        obtain ⟨refined, href⟩ := refine_solution_ne_nil
          (stack ++ [(⟨sym, amt + lot.amount,
                (amt + lot.amount) * price - (bv + lot.amount * lot.unit_price),
                ((amt + lot.amount) * price - (bv + lot.amount * lot.unit_price)) * (1 - tfv),
                (amt + lot.amount) * price, lot.amount,
                lot.amount * (price - lot.unit_price),
                lot.amount * (price - lot.unit_price) * (1 - tfv),
                lot.amount * price⟩ : TradeProposal)])
          (((amt + lot.amount) * price - (bv + lot.amount * lot.unit_price)) * (1 - tfv) - left)
          (by simp)
        rw [href]
        have hrefined : ∀ p ∈ refined, p.symbol ≠ s :=
          symbols_preserved s refined _ (refine_symbols _ refined _ href) hstack2
        constructor
        · intro v sol st heq
          injection heq with h1 h2 h3
          subst h2; subst h3
          exact ⟨hrefined, hrefined⟩
        · intro v sol st heq
          simp at heq
      · rw [if_neg hg]
        rcases Bool.eq_false_or_eq_true deeper with hdeep | hdeep
        swap
        · rw [hdeep] at ih ⊢
          rw [if_neg (by simp : ¬ (false = true))]
          rw [List.dropLast_concat]
          exact ih (bv + lot.amount * lot.unit_price) (amt + lot.amount) best stack
            (fun heq => absurd heq hsymne) hstack hbest
        · rw [hdeep] at ih ⊢
          rw [if_pos rfl]
          cases hrec : recur nextIndex
              (left - ((amt + lot.amount) * price - (bv + lot.amount * lot.unit_price)) * (1 - tfv))
              (stack ++ [(⟨sym, amt + lot.amount,
                (amt + lot.amount) * price - (bv + lot.amount * lot.unit_price),
                ((amt + lot.amount) * price - (bv + lot.amount * lot.unit_price)) * (1 - tfv),
                (amt + lot.amount) * price, lot.amount,
                lot.amount * (price - lot.unit_price),
                lot.amount * (price - lot.unit_price) * (1 - tfv),
                lot.amount * price⟩ : TradeProposal)]) with
          | mk res st2 =>
            obtain ⟨hst2, hres⟩ := by
              have := Hrec nextIndex
                (left - ((amt + lot.amount) * price - (bv + lot.amount * lot.unit_price)) * (1 - tfv))
                (stack ++ [(⟨sym, amt + lot.amount,
                  (amt + lot.amount) * price - (bv + lot.amount * lot.unit_price),
                  ((amt + lot.amount) * price - (bv + lot.amount * lot.unit_price)) * (1 - tfv),
                  (amt + lot.amount) * price, lot.amount,
                  lot.amount * (price - lot.unit_price),
                  lot.amount * (price - lot.unit_price) * (1 - tfv),
                  lot.amount * price⟩ : TradeProposal)]) hstack2
              rw [hrec] at this
              exact this
            have hdrop : ∀ p ∈ st2.dropLast, p.symbol ≠ s :=
              fun p hp => hst2 p ((List.dropLast_sublist st2).subset hp)
            cases res with
            | none =>
              exact ih (bv + lot.amount * lot.unit_price) (amt + lot.amount) best st2.dropLast
                (fun heq => absurd heq hsymne) hdrop hbest
            | some r =>
              simp only []
              by_cases hlt : r.1 < best.1
              · rw [if_pos hlt]
                exact ih (bv + lot.amount * lot.unit_price) (amt + lot.amount) (r.1, r.2)
                  st2.dropLast (fun heq => absurd heq hsymne) hdrop
                  (hres r.1 r.2 (by rw [Prod.mk.eta]))
              · rw [if_neg hlt]
                exact ih (bv + lot.amount * lot.unit_price) (amt + lot.amount) best
                  st2.dropLast (fun heq => absurd heq hsymne) hdrop hbest
    · rw [if_neg hm]
      refine ih (bv + lot.amount * lot.unit_price) (amt + lot.amount) best stack ?_ hstack hbest
      intro heq
      have hb := hnp heq
      rw [noProfitRun, Bool.and_eq_true] at hb
      exact hb.2

/-- If a security never passes the positive-profit test on any holdings
entry carrying it, the symbol loop keeps the stack and every returned
solution free of proposals for it (assuming the recursion does). -/
lemma symLoop_preserves (s : String)
    (recur : ℕ → ℚ → List TradeProposal → Option (ℚ × List TradeProposal) × List TradeProposal)
    (deeper : Bool) (prices tf : String → ℚ) (left : ℚ)
    (Hrec : ∀ i l st, (∀ p ∈ st, p.symbol ≠ s) →
      (∀ p ∈ (recur i l st).2, p.symbol ≠ s) ∧
      (∀ v sol, (recur i l st).1 = some (v, sol) → ∀ p ∈ sol, p.symbol ≠ s)) :
    ∀ (hs : List (String × List Trade)) (symIndex : ℕ) (best : ℚ × List TradeProposal)
      (stack : List TradeProposal),
      (∀ e ∈ hs, e.1 = s → noProfitRun (prices s) e.2 0 0 = true) →
      (∀ p ∈ stack, p.symbol ≠ s) →
      (∀ p ∈ best.2, p.symbol ≠ s) →
      (∀ p ∈ (symLoop recur deeper prices tf left hs symIndex best stack).2, p.symbol ≠ s) ∧
      (∀ v sol,
        (symLoop recur deeper prices tf left hs symIndex best stack).1 = some (v, sol) →
        ∀ p ∈ sol, p.symbol ≠ s) := by
  intro hs
  induction hs with
  | nil =>
    intro symIndex best stack _ hstack hbest
    rw [symLoop]
    by_cases hb : best.1 < INFINITY
    · rw [if_pos hb]
      refine ⟨hstack, ?_⟩
      intro v sol heq
      have h2 : best = (v, sol) := Option.some.inj heq
      have h3 : best.2 = sol := by rw [h2]
      rw [← h3]
      exact hbest
    · rw [if_neg hb]
      exact ⟨hstack, fun v sol heq => Option.noConfusion heq⟩
  | cons e rest ih =>
    intro symIndex best stack hnp hstack hbest
    obtain ⟨sym, lots⟩ := e
    have hhead : sym = s → noProfitRun (prices sym) lots 0 0 = true := by
      intro heq
      rw [heq]
      exact hnp (sym, lots) (List.mem_cons_self _ _) heq
    have hll := lotLoop_preserves s recur deeper (prices sym) (tf sym) sym (symIndex + 1) left
      Hrec lots 0 0 best stack hhead hstack hbest
    rw [symLoop]
    cases hl : lotLoop recur deeper (prices sym) (tf sym) sym (symIndex + 1) left lots 0 0
        best stack with
    | early v0 s0 st0 =>
      simp only []
      obtain ⟨hs0, hst0⟩ := hll.1 v0 s0 st0 hl
      refine ⟨hst0, ?_⟩
      intro v sol heq
      have h2 : ((v0, s0) : ℚ × List TradeProposal) = (v, sol) := Option.some.inj heq
      injection h2 with h3 h4
      rw [← h4]
      exact hs0
    | done bv0 bs0 st0 =>
      simp only []
      obtain ⟨hbs0, hst0⟩ := hll.2 bv0 bs0 st0 hl
      exact ih (symIndex + 1) (bv0, bs0) st0
        (fun e he => hnp e (List.mem_cons_of_mem _ he)) hst0 hbs0

/-- If a security never passes the positive-profit test on any holdings
entry carrying it, `_backtrack` keeps the stack and every returned solution
free of proposals for it. -/
lemma backtrack_preserves (s : String) (ctx : SearchCtx)
    (hnp : ∀ e ∈ ctx.holdings, e.1 = s → noProfitRun (ctx.prices s) e.2 0 0 = true) :
    ∀ (a index : ℕ) (left : ℚ) (stack : List TradeProposal),
      (∀ p ∈ stack, p.symbol ≠ s) →
      (∀ p ∈ (backtrack ctx a index left stack).2, p.symbol ≠ s) ∧
      (∀ v sol, (backtrack ctx a index left stack).1 = some (v, sol) →
        ∀ p ∈ sol, p.symbol ≠ s) := by
  intro a
  induction a with
  | zero =>
    intro index left stack hstack
    rw [backtrack]
    exact ⟨hstack, fun v sol heq => Option.noConfusion heq⟩
  | succ a ih =>
    intro index left stack hstack
    rw [backtrack]
    by_cases hle : ctx.holdings.length < index
    · rw [if_pos hle]
      exact ⟨hstack, fun v sol heq => Option.noConfusion heq⟩
    · rw [if_neg hle]
      exact symLoop_preserves s (fun i l st => backtrack ctx a i l st) (decide (0 < a))
        ctx.prices ctx.tf left (fun i l st h => ih i l st h)
        (ctx.holdings.drop index) index (INFINITY, []) stack
        (fun e he => hnp e (List.mem_of_mem_drop he)) hstack
        (fun p hp => absurd hp (List.not_mem_nil p))

/-- The preservation carries through the iterative-deepening driver. -/
lemma searchFrom_preserves (s : String) (ctx : SearchCtx) (desired : ℚ)
    (hnp : ∀ e ∈ ctx.holdings, e.1 = s → noProfitRun (ctx.prices s) e.2 0 0 = true) :
    ∀ (fuel k n : ℕ) (v : ℚ) (sol : List TradeProposal),
      searchFrom ctx desired k fuel = some (n, v, sol) → ∀ p ∈ sol, p.symbol ≠ s := by
  intro fuel
  induction fuel with
  | zero =>
    intro k n v sol heq
    rw [searchFrom] at heq
    exact Option.noConfusion heq
  | succ fuel ih =>
    intro k n v sol heq
    rw [searchFrom] at heq
    cases hb : (backtrack ctx k 0 desired []).1 with
    | some r =>
      rw [hb] at heq
      simp only [] at heq
      have h2 : ((k, r.1, r.2) : ℕ × ℚ × List TradeProposal) = (n, v, sol) :=
        Option.some.inj heq
      injection h2 with h3 h4
      injection h4 with h5 h6
      rw [← h6]
      exact (backtrack_preserves s ctx hnp k 0 desired []
        (fun p hp => absurd hp (List.not_mem_nil p))).2 r.1 r.2 (by rw [hb, Prod.mk.eta])
    | none =>
      rw [hb] at heq
      simp only [] at heq
      exact ih (k + 1) n v sol heq

/-- C8 (amended): a security none of whose cumulative FIFO lot prefixes has
average cost strictly below its current price (so the lot loop's
positive-profit test `current_buy_value / current_amount < price` never
passes for it, starting from zero accumulators) never appears in any
proposal of any solution returned by the minimal-solution search. -/
theorem C8_amended_no_unprofitable_symbol (ctx : SearchCtx) (desired : ℚ) (s : String)
    (hnp : ∀ e ∈ ctx.holdings, e.1 = s → noProfitRun (ctx.prices s) e.2 0 0 = true)
    (n : ℕ) (v : ℚ) (sol : List TradeProposal)
    (h : find_minimal_solution ctx desired = some (n, v, sol)) :
    ∀ p ∈ sol, p.symbol ≠ s := by
  rw [find_minimal_solution] at h
  exact searchFrom_preserves s ctx desired hnp MAX_TRADES 1 n v sol h

/-- Witness for C8 (amended): on `ctxC8W` (A: 10 @ 90, L: 1 @ 300, both
priced 100, target 100), L's only lot realizes a loss, and the returned
solution's single proposal indeed avoids L. -/
theorem C8_amended_witness :
    (⟨"A", 10, 100, 100, 1000, 10, 100, 100, 1000⟩ : TradeProposal).symbol ≠ "L" := by
  refine C8_amended_no_unprofitable_symbol ctxC8W 100 "L" ?_ 1 1000
    [(⟨"A", 10, 100, 100, 1000, 10, 100, 100, 1000⟩ : TradeProposal)] ?_
    _ (List.mem_singleton.mpr rfl)
  · intro e he h1
    simp only [ctxC8W, List.mem_cons, List.not_mem_nil, or_false] at he
    rcases he with he | he
    · subst he
      simp at h1
    · subst he
      norm_num [noProfitRun, ctxC8W]
  · norm_num [find_minimal_solution, searchFrom, backtrack, symLoop,
      lotLoop, refine_solution, refineScan, refineScanGo, applyAt, updateProposal,
      INFINITY, MAX_TRADES, ctxC8W, List.dropLast, List.sum_cons, List.sum_nil]

/-! ### C1: stack-size and volume bounds for the search -/

/-- Nonnegative lot amounts give a nonnegative total amount. -/
lemma lotSum_nonneg (lots : List Trade) (h : ∀ t ∈ lots, 0 ≤ t.amount) :
    0 ≤ lotSum lots := by
  refine List.sum_nonneg ?_
  intro x hx
  obtain ⟨t, ht, rfl⟩ := List.mem_map.mp hx
  exact h t ht

/-- The volume cap is nonnegative under the data-sanity hypotheses. -/
lemma capVol_nonneg (prices : String → ℚ) (hs : List (String × List Trade))
    (h : ∀ e ∈ hs, (∀ t ∈ e.2, 0 ≤ t.amount) ∧ 0 ≤ prices e.1) :
    0 ≤ capVol prices hs := by
  refine List.sum_nonneg ?_
  intro x hx
  obtain ⟨e, he, rfl⟩ := List.mem_map.mp hx
  exact mul_nonneg (lotSum_nonneg e.2 (h e he).1) (h e he).2

/-- Each entry's total sale value is at most the global volume cap. -/
lemma capVol_entry_le (prices : String → ℚ) (hs : List (String × List Trade))
    (h : ∀ e ∈ hs, (∀ t ∈ e.2, 0 ≤ t.amount) ∧ 0 ≤ prices e.1)
    (e : String × List Trade) (he : e ∈ hs) :
    lotSum e.2 * prices e.1 ≤ capVol prices hs := by
  refine List.single_le_sum ?_ _ (List.mem_map_of_mem (fun e => lotSum e.2 * prices e.1) he)
  intro x hx
  obtain ⟨e', he', rfl⟩ := List.mem_map.mp hx
  exact mul_nonneg (lotSum_nonneg e'.2 (h e' he').1) (h e' he').2

/-- Dropping entries does not increase the total lot count. -/
lemma totalLots_drop_le : ∀ (hs : List (String × List Trade)) (i : ℕ),
    totalLots (hs.drop i) ≤ totalLots hs := by
  intro hs
  induction hs with
  | nil => intro i; simp
  | cons e rest ih =>
    intro i
    cases i with
    | zero => exact le_rfl
    | succ n =>
      simp only [List.drop_succ_cons, totalLots, List.map_cons, List.sum_cons]
      exact le_trans (ih n) (Nat.le_add_left _ _)

/-- A list of proposals with individually bounded volumes has total volume at
most length times the bound. -/
lemma solVol_le (B : ℚ) : ∀ (l : List TradeProposal),
    (∀ p ∈ l, p.volume ≤ B) → solVol l ≤ (l.length : ℚ) * B := by
  intro l
  induction l with
  | nil => intro _; simp [solVol]
  | cons p r ih =>
    intro h
    have h1 := h p (List.mem_cons_self _ _)
    have h2 := ih (fun q hq => h q (List.mem_cons_of_mem _ hq))
    simp only [solVol, List.map_cons, List.sum_cons, List.length_cons] at h2 ⊢
    push_cast
    linarith

/-- `updateProposal` with a proportion in `[0, 1]` keeps the volume sanity
invariant. -/
lemma updateProposal_volOK (B : ℚ) (q : TradeProposal) (prop : ℚ)
    (hq : propVolOK B q) (h0 : 0 ≤ prop) (h1 : prop ≤ 1) :
    propVolOK B (updateProposal q prop) := by
  obtain ⟨hl, hv⟩ := hq
  constructor
  · show 0 ≤ q.last_buy_volume * (1 - prop)
    exact mul_nonneg hl (by linarith)
  · show q.volume - q.last_buy_volume * prop ≤ B
    have := mul_nonneg hl h0
    linarith

/-- The proportion chosen by the refinement scan stays in `[0, 1]` for a
nonnegative difference. -/
lemma refineScanGo_prop_bound : ∀ (sol : List TradeProposal) (d : ℚ) (i : ℕ)
    (acc : ℚ × ℚ × ℤ), 0 ≤ d → 0 ≤ acc.2.1 → acc.2.1 ≤ 1 →
    0 ≤ (refineScanGo sol d i acc).2.1 ∧ (refineScanGo sol d i acc).2.1 ≤ 1 := by
  intro sol
  induction sol with
  | nil => intro d i acc hd h0 h1; exact ⟨h0, h1⟩
  | cons t r ih =>
    intro d i acc hd h0 h1
    simp only [refineScanGo]
    by_cases hq : d < t.last_buy_taxable_profit
    · rw [if_pos hq]
      by_cases hb : acc.1 < d / t.last_buy_taxable_profit * t.last_buy_volume
      · rw [if_pos hb]
        refine ih d (i + 1) _ hd ?_ ?_
        · exact div_nonneg hd (le_of_lt (lt_of_le_of_lt hd hq))
        · exact le_of_lt ((div_lt_one (lt_of_le_of_lt hd hq)).mpr hq)
      · rw [if_neg hb]
        exact ih d (i + 1) acc hd h0 h1
    · rw [if_neg hq]
      exact ih d (i + 1) acc hd h0 h1

/-- Members of `applyAt sol n prop` are members of `sol`, possibly updated. -/
lemma applyAt_mem : ∀ (sol : List TradeProposal) (n : ℕ) (prop : ℚ)
    (p : TradeProposal), p ∈ applyAt sol n prop →
    p ∈ sol ∨ ∃ q ∈ sol, p = updateProposal q prop := by
  intro sol
  induction sol with
  | nil => intro n prop p hp; exact absurd hp (List.not_mem_nil p)
  | cons t r ih =>
    intro n prop p hp
    cases n with
    | zero =>
      rcases List.mem_cons.mp hp with h | h
      · exact Or.inr ⟨t, List.mem_cons_self _ _, h⟩
      · exact Or.inl (List.mem_cons_of_mem _ h)
    | succ m =>
      rcases List.mem_cons.mp hp with h | h
      · exact Or.inl (h ▸ List.mem_cons_self _ _)
      · rcases ih m prop p h with h2 | ⟨q, hq, he⟩
        · exact Or.inl (List.mem_cons_of_mem _ h2)
        · exact Or.inr ⟨q, List.mem_cons_of_mem _ hq, he⟩

/-- Refinement with a nonnegative difference keeps the volume sanity
invariant and the length. -/
lemma refine_volOK (B : ℚ) (sol refined : List TradeProposal) (d : ℚ)
    (hd : 0 ≤ d) (hsol : ∀ p ∈ sol, propVolOK B p)
    (h : refine_solution sol d = some refined) :
    (∀ p ∈ refined, propVolOK B p) ∧ refined.length = sol.length := by
  cases sol with
  | nil => simp [refine_solution] at h
  | cons p0 r =>
    simp only [refine_solution] at h
    rw [← Option.some.inj h]
    have hprop := refineScanGo_prop_bound (p0 :: r) d 0 (0, 0, -1) hd le_rfl
      (by norm_num)
    constructor
    · intro p hp
      rcases applyAt_mem (p0 :: r) _ _ p hp with hmem | ⟨q, hq, he⟩
      · exact hsol p hmem
      · rw [he]
        exact updateProposal_volOK B q _ (hsol q hq) hprop.1 hprop.2
    · exact applyAt_length _ _ _

/-- The first `n` of no lots total zero amount. -/
lemma cutAmount_zero (lots : List Trade) : cutAmount lots 0 = 0 := rfl

/-- The first `n` of no lots total zero buy value. -/
lemma cutBuyValue_zero (lots : List Trade) : cutBuyValue lots 0 = 0 := rfl

/-- Peeling one lot off a cumulative amount. -/
lemma cutAmount_cons (lot : Trade) (rest : List Trade) (n : ℕ) :
    cutAmount (lot :: rest) (n + 1) = lot.amount + cutAmount rest n := by
  simp [cutAmount, List.take_succ_cons]

/-- Peeling one lot off a cumulative buy value. -/
lemma cutBuyValue_cons (lot : Trade) (rest : List Trade) (n : ℕ) :
    cutBuyValue (lot :: rest) (n + 1)
      = lot.amount * lot.unit_price + cutBuyValue rest n := by
  simp [cutBuyValue, List.take_succ_cons]

/-- The solution-length allowance grows with the allowed trade count. -/
lemma leakG_mono (T : ℕ) : ∀ a b : ℕ, a ≤ b → leakG T a ≤ leakG T b := by
  intro a b
  induction b with
  | zero => intro h; rw [Nat.le_zero.mp h]
  | succ n ih =>
    intro h
    rcases Nat.lt_or_ge a (n + 1) with hlt | hge
    · exact le_trans (ih (Nat.lt_succ_iff.mp hlt)) (by rw [leakG]; exact Nat.le_add_left _ _)
    · rw [Nat.le_antisymm h hge]

/-- The iterative-deepening driver answers below `k0 + fuel`. -/
lemma searchFrom_ub (ctx : SearchCtx) (desired : ℚ) :
    ∀ (fuel k0 k : ℕ) (v : ℚ) (sol : List TradeProposal),
      searchFrom ctx desired k0 fuel = some (k, v, sol) → k < k0 + fuel := by
  intro fuel
  induction fuel with
  | zero => intro k0 k v sol h; simp [searchFrom] at h
  | succ n ih =>
    intro k0 k v sol h
    rw [searchFrom] at h
    cases hb : (backtrack ctx k0 0 desired []).1 with
    | some r =>
      rw [hb] at h
      simp only [Option.some.injEq, Prod.mk.injEq] at h
      omega
    | none =>
      rw [hb] at h
      have := ih (k0 + 1) k v sol h
      omega

/-- Volume/size bound for the lot loop: with sane data, a bounded recursion
(`Hrec`), a stack within budget `N` and a best value that is either the
sentinel or bounded, every early exit keeps the stack within `N` and returns
a volume at most `N * B`, and every completed loop grows the stack by at
most one leak allowance per lot and keeps the best value sentinel-or-bounded. -/
lemma lotLoop_bound (B : ℚ) (T : ℕ) (a : ℕ) (N : ℕ)
    (recur : ℕ → ℚ → List TradeProposal → Option (ℚ × List TradeProposal) × List TradeProposal)
    (deeper : Bool) (price tfv : ℚ) (sym : String) (nextIndex : ℕ) (left : ℚ)
    (hB : 0 ≤ B) (hprice : 0 ≤ price)
    (Hrec : ∀ i l st, (∀ p ∈ st, propVolOK B p) →
      (∀ p ∈ (recur i l st).2, propVolOK B p) ∧
      (recur i l st).2.length ≤ st.length + leakF T a ∧
      (∀ r, (recur i l st).1 = some r →
        r.1 ≤ ((st.length + leakG T a : ℕ) : ℚ) * B)) :
    ∀ (lots : List Trade) (bv amt : ℚ) (best : ℚ × List TradeProposal)
      (stack : List TradeProposal),
      (∀ t ∈ lots, 0 ≤ t.amount) →
      (amt + lotSum lots) * price ≤ B →
      (∀ p ∈ stack, propVolOK B p) →
      stack.length + lots.length * leakF T a + 1 ≤ N →
      (best.1 = INFINITY ∨ best.1 ≤ ((N + leakG T a : ℕ) : ℚ) * B) →
      (∀ v sol st,
        lotLoop recur deeper price tfv sym nextIndex left lots bv amt best stack
          = LoopRes.early v sol st →
        (∀ p ∈ st, propVolOK B p) ∧ st.length ≤ N ∧ v ≤ (N : ℚ) * B) ∧
      (∀ v bs st,
        lotLoop recur deeper price tfv sym nextIndex left lots bv amt best stack
          = LoopRes.done v bs st →
        (∀ p ∈ st, propVolOK B p) ∧
        st.length ≤ stack.length + lots.length * leakF T a ∧
        (v = INFINITY ∨ v ≤ ((N + leakG T a : ℕ) : ℚ) * B)) := by
  intro lots
  induction lots with
  | nil =>
    intro bv amt best stack _ _ hstack _ hbest
    constructor
    · intro v sol st heq
      rw [lotLoop] at heq
      simp at heq
    · intro v bs st heq
      rw [lotLoop] at heq
      injection heq with h1 h2 h3
      subst h1; subst h2; subst h3
      exact ⟨hstack, by simp, hbest⟩
  | cons lot rest ih =>
    intro bv amt best stack hamts hcap hstack hN hbest
    have hamts' : ∀ t ∈ rest, 0 ≤ t.amount :=
      fun t ht => hamts t (List.mem_cons_of_mem _ ht)
    have hsum : lotSum (lot :: rest) = lot.amount + lotSum rest := by
      simp [lotSum]
    have hcap2 : (amt + lot.amount + lotSum rest) * price ≤ B := by
      have he : amt + lot.amount + lotSum rest = amt + lotSum (lot :: rest) := by
        rw [hsum]; ring
      rw [he]
      exact hcap
    simp only [List.length_cons] at hN
    rw [Nat.succ_mul] at hN
    simp only [lotLoop]
    by_cases hm : (bv + lot.amount * lot.unit_price) / (amt + lot.amount) < price
    · rw [if_pos hm]
      have hpOK : propVolOK B (⟨sym, amt + lot.amount,
          (amt + lot.amount) * price - (bv + lot.amount * lot.unit_price),
          ((amt + lot.amount) * price - (bv + lot.amount * lot.unit_price)) * (1 - tfv),
          (amt + lot.amount) * price, lot.amount,
          lot.amount * (price - lot.unit_price),
          lot.amount * (price - lot.unit_price) * (1 - tfv),
          lot.amount * price⟩ : TradeProposal) := by
        constructor
        · exact mul_nonneg (hamts lot (List.mem_cons_self _ _)) hprice
        · show (amt + lot.amount) * price ≤ B
          have hls : 0 ≤ lotSum rest := lotSum_nonneg rest hamts'
          have : (amt + lot.amount) * price ≤ (amt + lot.amount + lotSum rest) * price :=
            mul_le_mul_of_nonneg_right (by linarith) hprice
          linarith
      have hstack2 : ∀ p ∈ stack ++ [(⟨sym, amt + lot.amount,
          (amt + lot.amount) * price - (bv + lot.amount * lot.unit_price),
          ((amt + lot.amount) * price - (bv + lot.amount * lot.unit_price)) * (1 - tfv),
          (amt + lot.amount) * price, lot.amount,
          lot.amount * (price - lot.unit_price),
          lot.amount * (price - lot.unit_price) * (1 - tfv),
          lot.amount * price⟩ : TradeProposal)], propVolOK B p := by
        intro p hp
        rcases List.mem_append.mp hp with hp | hp
        · exact hstack p hp
        · rw [List.mem_singleton.mp hp]
          exact hpOK
      have hlen2 : (stack ++ [(⟨sym, amt + lot.amount,
          (amt + lot.amount) * price - (bv + lot.amount * lot.unit_price),
          ((amt + lot.amount) * price - (bv + lot.amount * lot.unit_price)) * (1 - tfv),
          (amt + lot.amount) * price, lot.amount,
          lot.amount * (price - lot.unit_price),
          lot.amount * (price - lot.unit_price) * (1 - tfv),
          lot.amount * price⟩ : TradeProposal)]).length = stack.length + 1 := by
        simp
      by_cases hg : left ≤ ((amt + lot.amount) * price - (bv + lot.amount * lot.unit_price)) * (1 - tfv)
      · rw [if_pos hg]
        obtain ⟨refined, href⟩ := refine_solution_ne_nil
          (stack ++ [(⟨sym, amt + lot.amount,
                (amt + lot.amount) * price - (bv + lot.amount * lot.unit_price),
                ((amt + lot.amount) * price - (bv + lot.amount * lot.unit_price)) * (1 - tfv),
                (amt + lot.amount) * price, lot.amount,
                lot.amount * (price - lot.unit_price),
                lot.amount * (price - lot.unit_price) * (1 - tfv),
                lot.amount * price⟩ : TradeProposal)])
          (((amt + lot.amount) * price - (bv + lot.amount * lot.unit_price)) * (1 - tfv) - left)
          (by simp)
        rw [href]
        obtain ⟨hrefOK, hreflen⟩ := refine_volOK B _ refined _
          (by linarith) hstack2 href
        rw [hlen2] at hreflen
        have hrlen : refined.length ≤ N := by omega
        constructor
        · intro v sol st heq
          injection heq with h1 h2 h3
          subst h1; subst h2; subst h3
          refine ⟨hrefOK, hrlen, ?_⟩
          have hv := solVol_le B refined (fun p hp => (hrefOK p hp).2)
          simp only [solVol] at hv
          have : (refined.length : ℚ) * B ≤ (N : ℚ) * B :=
            mul_le_mul_of_nonneg_right (by exact_mod_cast hrlen) hB
          linarith
        · intro v bs st heq
          simp at heq
      · rw [if_neg hg]
        rcases Bool.eq_false_or_eq_true deeper with hdeep | hdeep
        swap
        · rw [hdeep] at ih ⊢
          rw [if_neg (by simp : ¬ (false = true))]
          rw [List.dropLast_concat]
          obtain ⟨ihE, ihD⟩ := ih (bv + lot.amount * lot.unit_price) (amt + lot.amount)
            best stack hamts' hcap2 hstack (by omega) hbest
          refine ⟨ihE, ?_⟩
          intro v bs st heq
          obtain ⟨o1, o2, o3⟩ := ihD v bs st heq
          refine ⟨o1, ?_, o3⟩
          simp only [List.length_cons]
          rw [Nat.succ_mul]
          omega
        · rw [hdeep] at ih ⊢
          rw [if_pos rfl]
          cases hrec : recur nextIndex
              (left - ((amt + lot.amount) * price - (bv + lot.amount * lot.unit_price)) * (1 - tfv))
              (stack ++ [(⟨sym, amt + lot.amount,
                (amt + lot.amount) * price - (bv + lot.amount * lot.unit_price),
                ((amt + lot.amount) * price - (bv + lot.amount * lot.unit_price)) * (1 - tfv),
                (amt + lot.amount) * price, lot.amount,
                lot.amount * (price - lot.unit_price),
                lot.amount * (price - lot.unit_price) * (1 - tfv),
                lot.amount * price⟩ : TradeProposal)]) with
          | mk res st2 =>
            obtain ⟨hOK2, hlen3, hres2⟩ := by
              have := Hrec nextIndex
                (left - ((amt + lot.amount) * price - (bv + lot.amount * lot.unit_price)) * (1 - tfv))
                (stack ++ [(⟨sym, amt + lot.amount,
                  (amt + lot.amount) * price - (bv + lot.amount * lot.unit_price),
                  ((amt + lot.amount) * price - (bv + lot.amount * lot.unit_price)) * (1 - tfv),
                  (amt + lot.amount) * price, lot.amount,
                  lot.amount * (price - lot.unit_price),
                  lot.amount * (price - lot.unit_price) * (1 - tfv),
                  lot.amount * price⟩ : TradeProposal)]) hstack2
              rw [hrec] at this
              exact this
            have hlen4 : st2.length ≤ stack.length + 1 + leakF T a := by
              rw [hlen2] at hlen3
              exact hlen3
            have hdropOK : ∀ p ∈ st2.dropLast, propVolOK B p :=
              fun p hp => hOK2 p ((List.dropLast_sublist st2).subset hp)
            have hdl : st2.dropLast.length = st2.length - 1 := List.length_dropLast st2
            cases res with
            | none =>
              obtain ⟨ihE, ihD⟩ := ih (bv + lot.amount * lot.unit_price) (amt + lot.amount)
                best st2.dropLast hamts' hcap2 hdropOK (by omega) hbest
              refine ⟨ihE, ?_⟩
              intro v bs st heq
              obtain ⟨o1, o2, o3⟩ := ihD v bs st heq
              refine ⟨o1, ?_, o3⟩
              simp only [List.length_cons]
              rw [Nat.succ_mul]
              omega
            | some r =>
              simp only []
              have hr1 : r.1 ≤ ((N + leakG T a : ℕ) : ℚ) * B := by
                have h0 := hres2 r rfl
                rw [hlen2] at h0
                have hcast : ((stack.length + 1 + leakG T a : ℕ) : ℚ) * B
                    ≤ ((N + leakG T a : ℕ) : ℚ) * B :=
                  mul_le_mul_of_nonneg_right (by exact_mod_cast (by omega :
                    stack.length + 1 + leakG T a ≤ N + leakG T a)) hB
                linarith
              by_cases hlt : r.1 < best.1
              · rw [if_pos hlt]
                obtain ⟨ihE, ihD⟩ := ih (bv + lot.amount * lot.unit_price) (amt + lot.amount)
                  (r.1, r.2) st2.dropLast hamts' hcap2 hdropOK (by omega) (Or.inr hr1)
                refine ⟨ihE, ?_⟩
                intro v bs st heq
                obtain ⟨o1, o2, o3⟩ := ihD v bs st heq
                refine ⟨o1, ?_, o3⟩
                simp only [List.length_cons]
                rw [Nat.succ_mul]
                omega
              · rw [if_neg hlt]
                obtain ⟨ihE, ihD⟩ := ih (bv + lot.amount * lot.unit_price) (amt + lot.amount)
                  best st2.dropLast hamts' hcap2 hdropOK (by omega) hbest
                refine ⟨ihE, ?_⟩
                intro v bs st heq
                obtain ⟨o1, o2, o3⟩ := ihD v bs st heq
                refine ⟨o1, ?_, o3⟩
                simp only [List.length_cons]
                rw [Nat.succ_mul]
                omega
    · rw [if_neg hm]
      obtain ⟨ihE, ihD⟩ := ih (bv + lot.amount * lot.unit_price) (amt + lot.amount)
        best stack hamts' hcap2 hstack (by omega) hbest
      refine ⟨ihE, ?_⟩
      intro v bs st heq
      obtain ⟨o1, o2, o3⟩ := ihD v bs st heq
      refine ⟨o1, ?_, o3⟩
      simp only [List.length_cons]
      rw [Nat.succ_mul]
      omega

/-- Volume/size bound for the symbol loop: sane entries, a bounded recursion
and a stack within budget `N` keep the final stack within `N` and any
returned volume at most `(N + leak allowance) * B`. -/
lemma symLoop_bound (B : ℚ) (T : ℕ) (a : ℕ) (N : ℕ)
    (recur : ℕ → ℚ → List TradeProposal → Option (ℚ × List TradeProposal) × List TradeProposal)
    (deeper : Bool) (prices tf : String → ℚ) (left : ℚ)
    (hB : 0 ≤ B)
    (Hrec : ∀ i l st, (∀ p ∈ st, propVolOK B p) →
      (∀ p ∈ (recur i l st).2, propVolOK B p) ∧
      (recur i l st).2.length ≤ st.length + leakF T a ∧
      (∀ r, (recur i l st).1 = some r →
        r.1 ≤ ((st.length + leakG T a : ℕ) : ℚ) * B)) :
    ∀ (hs : List (String × List Trade)) (symIndex : ℕ) (best : ℚ × List TradeProposal)
      (stack : List TradeProposal),
      (∀ e ∈ hs, (∀ t ∈ e.2, 0 ≤ t.amount) ∧ 0 ≤ prices e.1 ∧
        lotSum e.2 * prices e.1 ≤ B) →
      (∀ p ∈ stack, propVolOK B p) →
      stack.length + totalLots hs * leakF T a + 1 ≤ N →
      (best.1 = INFINITY ∨ best.1 ≤ ((N + leakG T a : ℕ) : ℚ) * B) →
      (∀ p ∈ (symLoop recur deeper prices tf left hs symIndex best stack).2,
        propVolOK B p) ∧
      (symLoop recur deeper prices tf left hs symIndex best stack).2.length ≤ N ∧
      (∀ r, (symLoop recur deeper prices tf left hs symIndex best stack).1 = some r →
        r.1 ≤ ((N + leakG T a : ℕ) : ℚ) * B) := by
  intro hs
  induction hs with
  | nil =>
    intro symIndex best stack _ hstack hN hbest
    rw [symLoop]
    by_cases hb : best.1 < INFINITY
    · rw [if_pos hb]
      refine ⟨hstack, by simpa using (by omega : stack.length ≤ N), ?_⟩
      intro r heq
      have h2 : best = r := Option.some.inj heq
      rcases hbest with h | h
      · exact absurd hb (by rw [h]; exact lt_irrefl _)
      · rw [← h2]
        exact h
    · rw [if_neg hb]
      exact ⟨hstack, by simpa using (by omega : stack.length ≤ N),
        fun r heq => Option.noConfusion heq⟩
  | cons e rest ih =>
    intro symIndex best stack hents hstack hN hbest
    obtain ⟨sym, lots⟩ := e
    have hent := hents (sym, lots) (List.mem_cons_self _ _)
    have htot : totalLots ((sym, lots) :: rest) = lots.length + totalLots rest := by
      simp [totalLots]
    rw [htot, Nat.add_mul] at hN
    have hll := lotLoop_bound B T a N recur deeper (prices sym) (tf sym) sym
      (symIndex + 1) left hB hent.2.1 Hrec lots 0 0 best stack hent.1
      (by simpa using hent.2.2) hstack (by omega) hbest
    rw [symLoop]
    cases hl : lotLoop recur deeper (prices sym) (tf sym) sym (symIndex + 1) left
        lots 0 0 best stack with
    | early v0 s0 st0 =>
      simp only []
      obtain ⟨o1, o2, o3⟩ := hll.1 v0 s0 st0 hl
      refine ⟨o1, o2, ?_⟩
      intro r heq
      have h2 : ((v0, s0) : ℚ × List TradeProposal) = r := Option.some.inj heq
      rw [← h2]
      show v0 ≤ ((N + leakG T a : ℕ) : ℚ) * B
      have hNB : (N : ℚ) * B ≤ ((N + leakG T a : ℕ) : ℚ) * B :=
        mul_le_mul_of_nonneg_right
          (by exact_mod_cast Nat.le_add_right N (leakG T a)) hB
      linarith
    | done bv0 bs0 st0 =>
      simp only []
      obtain ⟨o1, o2, o3⟩ := hll.2 bv0 bs0 st0 hl
      exact ih (symIndex + 1) (bv0, bs0) st0
        (fun e he => hents e (List.mem_cons_of_mem _ he)) o1 (by omega) o3

/-- Volume/size bound for `_backtrack`: with sane data and a sane entry
stack, the call grows the stack by at most the leak allowance and any
solution it returns has total volume at most
`(stack size + length allowance) * B`. -/
lemma backtrack_bound (ctx : SearchCtx) (B : ℚ) (hB : 0 ≤ B)
    (HD : ∀ e ∈ ctx.holdings, (∀ t ∈ e.2, 0 ≤ t.amount) ∧ 0 ≤ ctx.prices e.1 ∧
      lotSum e.2 * ctx.prices e.1 ≤ B) :
    ∀ (a idx : ℕ) (left : ℚ) (stack : List TradeProposal),
      (∀ p ∈ stack, propVolOK B p) →
      (∀ p ∈ (backtrack ctx a idx left stack).2, propVolOK B p) ∧
      (backtrack ctx a idx left stack).2.length
        ≤ stack.length + leakF (totalLots ctx.holdings) a ∧
      (∀ r, (backtrack ctx a idx left stack).1 = some r →
        r.1 ≤ ((stack.length + leakG (totalLots ctx.holdings) a : ℕ) : ℚ) * B) := by
  intro a
  induction a with
  | zero =>
    intro idx left stack hstack
    rw [backtrack]
    exact ⟨hstack, by simp [leakF], fun r heq => Option.noConfusion heq⟩
  | succ a ih =>
    intro idx left stack hstack
    rw [backtrack]
    by_cases hle : ctx.holdings.length < idx
    · rw [if_pos hle]
      exact ⟨hstack,
        (by simp),
        fun r heq => Option.noConfusion heq⟩
    · rw [if_neg hle]
      obtain ⟨o1, o2, o3⟩ := symLoop_bound B (totalLots ctx.holdings) a
        (stack.length
          + totalLots (ctx.holdings.drop idx) * leakF (totalLots ctx.holdings) a + 1)
        (fun i l s => backtrack ctx a i l s) (decide (0 < a)) ctx.prices ctx.tf left hB
        (fun i l st hst => ih i l st hst)
        (ctx.holdings.drop idx) idx (INFINITY, []) stack
        (fun e he => HD e (List.mem_of_mem_drop he))
        hstack le_rfl (Or.inl rfl)
      have hdle : totalLots (ctx.holdings.drop idx) ≤ totalLots ctx.holdings :=
        totalLots_drop_le _ idx
      have hmul : totalLots (ctx.holdings.drop idx) * leakF (totalLots ctx.holdings) a
          ≤ totalLots ctx.holdings * leakF (totalLots ctx.holdings) a :=
        Nat.mul_le_mul_right _ hdle
      refine ⟨o1, ?_, ?_⟩
      · rw [leakF]
        omega
      · intro r heq
        have h0 := o3 r heq
        have hnat : stack.length
            + totalLots (ctx.holdings.drop idx) * leakF (totalLots ctx.holdings) a + 1
            + leakG (totalLots ctx.holdings) a
            ≤ stack.length + leakG (totalLots ctx.holdings) (a + 1) := by
          rw [leakG, leakF]
          omega
        have hcast : ((stack.length
              + totalLots (ctx.holdings.drop idx) * leakF (totalLots ctx.holdings) a + 1
              + leakG (totalLots ctx.holdings) a : ℕ) : ℚ) * B
            ≤ ((stack.length + leakG (totalLots ctx.holdings) (a + 1) : ℕ) : ℚ) * B :=
          mul_le_mul_of_nonneg_right (by exact_mod_cast hnat) hB
        linarith

/-- The final best value of a completed lot loop never exceeds the best value
it started from: candidates only ever replace a strictly larger best. -/
lemma lotLoop_done_le
    (recur : ℕ → ℚ → List TradeProposal → Option (ℚ × List TradeProposal) × List TradeProposal)
    (deeper : Bool) (price tfv : ℚ) (sym : String) (nextIndex : ℕ) (left : ℚ) :
    ∀ (lots : List Trade) (bv amt : ℚ) (best : ℚ × List TradeProposal)
      (stack : List TradeProposal) (v : ℚ) (bs st : List TradeProposal),
      lotLoop recur deeper price tfv sym nextIndex left lots bv amt best stack
        = LoopRes.done v bs st → v ≤ best.1 := by
  intro lots
  induction lots with
  | nil =>
    intro bv amt best stack v bs st heq
    rw [lotLoop] at heq
    injection heq with h1 h2 h3
    rw [← h1]
  | cons lot rest ih =>
    intro bv amt best stack v bs st heq
    simp only [lotLoop] at heq
    by_cases hm : (bv + lot.amount * lot.unit_price) / (amt + lot.amount) < price
    · rw [if_pos hm] at heq
      by_cases hg : left ≤ ((amt + lot.amount) * price - (bv + lot.amount * lot.unit_price)) * (1 - tfv)
      · rw [if_pos hg] at heq
        cases href : refine_solution (stack ++ [(⟨sym, amt + lot.amount,
            (amt + lot.amount) * price - (bv + lot.amount * lot.unit_price),
            ((amt + lot.amount) * price - (bv + lot.amount * lot.unit_price)) * (1 - tfv),
            (amt + lot.amount) * price, lot.amount,
            lot.amount * (price - lot.unit_price),
            lot.amount * (price - lot.unit_price) * (1 - tfv),
            lot.amount * price⟩ : TradeProposal)])
            (((amt + lot.amount) * price - (bv + lot.amount * lot.unit_price)) * (1 - tfv) - left) with
        | some refined => rw [href] at heq; simp at heq
        | none => rw [href] at heq; simp at heq
      · rw [if_neg hg] at heq
        rcases Bool.eq_false_or_eq_true deeper with hdeep | hdeep
        · rw [hdeep] at heq ih
          rw [if_pos rfl] at heq
          cases hrec : recur nextIndex
              (left - ((amt + lot.amount) * price - (bv + lot.amount * lot.unit_price)) * (1 - tfv))
              (stack ++ [(⟨sym, amt + lot.amount,
                (amt + lot.amount) * price - (bv + lot.amount * lot.unit_price),
                ((amt + lot.amount) * price - (bv + lot.amount * lot.unit_price)) * (1 - tfv),
                (amt + lot.amount) * price, lot.amount,
                lot.amount * (price - lot.unit_price),
                lot.amount * (price - lot.unit_price) * (1 - tfv),
                lot.amount * price⟩ : TradeProposal)]) with
          | mk res st2 =>
            rw [hrec] at heq
            cases res with
            | none =>
              simp only [] at heq
              exact ih _ _ best st2.dropLast v bs st heq
            | some r =>
              simp only [] at heq
              by_cases hlt : r.1 < best.1
              · rw [if_pos hlt] at heq
                exact le_trans (ih _ _ (r.1, r.2) st2.dropLast v bs st heq) (le_of_lt hlt)
              · rw [if_neg hlt] at heq
                exact ih _ _ best st2.dropLast v bs st heq
        · rw [hdeep] at heq ih
          rw [if_neg (by simp : ¬ (false = true))] at heq
          exact ih _ _ best _ v bs st heq
    · rw [if_neg hm] at heq
      exact ih _ _ best stack v bs st heq

/-- A symbol loop entered with a best value strictly below the sentinel
always returns a solution. -/
lemma symLoop_some_ne_none
    (recur : ℕ → ℚ → List TradeProposal → Option (ℚ × List TradeProposal) × List TradeProposal)
    (deeper : Bool) (prices tf : String → ℚ) (left : ℚ) :
    ∀ (hs : List (String × List Trade)) (symIndex : ℕ) (best : ℚ × List TradeProposal)
      (stack : List TradeProposal),
      best.1 < INFINITY →
      (symLoop recur deeper prices tf left hs symIndex best stack).1 ≠ none := by
  intro hs
  induction hs with
  | nil =>
    intro symIndex best stack hb
    rw [symLoop, if_pos hb]
    simp
  | cons e rest ih =>
    intro symIndex best stack hb
    obtain ⟨sym, lots⟩ := e
    rw [symLoop]
    cases hl : lotLoop recur deeper (prices sym) (tf sym) sym (symIndex + 1) left
        lots 0 0 best stack with
    | early v0 s0 st0 =>
      simp only []
      simp
    | done bv0 bs0 st0 =>
      simp only []
      exact ih (symIndex + 1) (bv0, bs0) st0
        (lt_of_le_of_lt (lotLoop_done_le recur deeper (prices sym) (tf sym) sym
          (symIndex + 1) left lots 0 0 best stack bv0 bs0 st0 hl) hb)

/-- Completeness of the lot loop: if some prefix `n` of the remaining lots
passes the profitability gate and either meets the goal outright or leaves a
remainder the (complete and bounded) recursion can cover, then the loop
cannot complete with a sentinel best value — the goal check fires, or a
candidate below the sentinel is adopted. -/
lemma lotLoop_complete (B : ℚ) (T : ℕ) (a : ℕ) (N : ℕ)
    (recur : ℕ → ℚ → List TradeProposal → Option (ℚ × List TradeProposal) × List TradeProposal)
    (price tfv : ℚ) (sym : String) (nextIndex : ℕ) (left : ℚ)
    (RR : ℚ → Prop)
    (hB : 0 ≤ B) (hprice : 0 ≤ price)
    (hINF : ((N + leakG T a : ℕ) : ℚ) * B < INFINITY)
    (HrecB : ∀ i l st, (∀ p ∈ st, propVolOK B p) →
      (∀ p ∈ (recur i l st).2, propVolOK B p) ∧
      (recur i l st).2.length ≤ st.length + leakF T a ∧
      (∀ r, (recur i l st).1 = some r →
        r.1 ≤ ((st.length + leakG T a : ℕ) : ℚ) * B))
    (HrecC : ∀ l st, (∀ p ∈ st, propVolOK B p) →
      ((st.length + leakG T a : ℕ) : ℚ) * B < INFINITY →
      0 < l → RR l → (recur nextIndex l st).1 ≠ none) :
    ∀ (lots : List Trade) (n : ℕ) (bv amt : ℚ) (best : ℚ × List TradeProposal)
      (stack : List TradeProposal),
      (∀ t ∈ lots, 0 ≤ t.amount) →
      (amt + lotSum lots) * price ≤ B →
      (∀ p ∈ stack, propVolOK B p) →
      stack.length + lots.length * leakF T a + 1 ≤ N →
      0 < n → n ≤ lots.length →
      (bv + cutBuyValue lots n) / (amt + cutAmount lots n) < price →
      (left ≤ ((amt + cutAmount lots n) * price - (bv + cutBuyValue lots n)) * (1 - tfv) ∨
        (0 < a ∧
          RR (left - ((amt + cutAmount lots n) * price - (bv + cutBuyValue lots n)) * (1 - tfv)))) →
      ∀ v bs st,
        lotLoop recur (decide (0 < a)) price tfv sym nextIndex left lots bv amt best stack
          = LoopRes.done v bs st → v < INFINITY := by
  intro lots
  induction lots with
  | nil =>
    intro n bv amt best stack _ _ _ _ hn hnle _ _ v bs st _
    simp at hnle
    omega
  | cons lot rest ih =>
    intro n bv amt best stack hamts hcap hstack hN hn hnle hgate hwit v bs st heq
    have hamts' : ∀ t ∈ rest, 0 ≤ t.amount :=
      fun t ht => hamts t (List.mem_cons_of_mem _ ht)
    have hsum : lotSum (lot :: rest) = lot.amount + lotSum rest := by
      simp [lotSum]
    have hcap2 : (amt + lot.amount + lotSum rest) * price ≤ B := by
      have he : amt + lot.amount + lotSum rest = amt + lotSum (lot :: rest) := by
        rw [hsum]; ring
      rw [he]
      exact hcap
    have hpOK : propVolOK B (⟨sym, amt + lot.amount,
        (amt + lot.amount) * price - (bv + lot.amount * lot.unit_price),
        ((amt + lot.amount) * price - (bv + lot.amount * lot.unit_price)) * (1 - tfv),
        (amt + lot.amount) * price, lot.amount,
        lot.amount * (price - lot.unit_price),
        lot.amount * (price - lot.unit_price) * (1 - tfv),
        lot.amount * price⟩ : TradeProposal) := by
      constructor
      · exact mul_nonneg (hamts lot (List.mem_cons_self _ _)) hprice
      · show (amt + lot.amount) * price ≤ B
        have hls : 0 ≤ lotSum rest := lotSum_nonneg rest hamts'
        have : (amt + lot.amount) * price ≤ (amt + lot.amount + lotSum rest) * price :=
          mul_le_mul_of_nonneg_right (by linarith) hprice
        linarith
    have hstack2 : ∀ p ∈ stack ++ [(⟨sym, amt + lot.amount,
        (amt + lot.amount) * price - (bv + lot.amount * lot.unit_price),
        ((amt + lot.amount) * price - (bv + lot.amount * lot.unit_price)) * (1 - tfv),
        (amt + lot.amount) * price, lot.amount,
        lot.amount * (price - lot.unit_price),
        lot.amount * (price - lot.unit_price) * (1 - tfv),
        lot.amount * price⟩ : TradeProposal)], propVolOK B p := by
      intro p hp
      rcases List.mem_append.mp hp with hp | hp
      · exact hstack p hp
      · rw [List.mem_singleton.mp hp]
        exact hpOK
    have hlen2 : (stack ++ [(⟨sym, amt + lot.amount,
        (amt + lot.amount) * price - (bv + lot.amount * lot.unit_price),
        ((amt + lot.amount) * price - (bv + lot.amount * lot.unit_price)) * (1 - tfv),
        (amt + lot.amount) * price, lot.amount,
        lot.amount * (price - lot.unit_price),
        lot.amount * (price - lot.unit_price) * (1 - tfv),
        lot.amount * price⟩ : TradeProposal)]).length = stack.length + 1 := by
      simp
    simp only [List.length_cons] at hN hnle
    rw [Nat.succ_mul] at hN
    simp only [lotLoop] at heq
    cases n with
    | zero => omega
    | succ m =>
      cases m with
      | zero =>
        rw [cutAmount_cons, cutBuyValue_cons, cutAmount_zero, cutBuyValue_zero] at hgate hwit
        simp only [add_zero] at hgate hwit
        rw [if_pos hgate] at heq
        by_cases hg : left ≤ ((amt + lot.amount) * price - (bv + lot.amount * lot.unit_price)) * (1 - tfv)
        · rw [if_pos hg] at heq
          cases href : refine_solution (stack ++ [(⟨sym, amt + lot.amount,
              (amt + lot.amount) * price - (bv + lot.amount * lot.unit_price),
              ((amt + lot.amount) * price - (bv + lot.amount * lot.unit_price)) * (1 - tfv),
              (amt + lot.amount) * price, lot.amount,
              lot.amount * (price - lot.unit_price),
              lot.amount * (price - lot.unit_price) * (1 - tfv),
              lot.amount * price⟩ : TradeProposal)])
              (((amt + lot.amount) * price - (bv + lot.amount * lot.unit_price)) * (1 - tfv) - left) with
          | some refined => rw [href] at heq; simp at heq
          | none => rw [href] at heq; simp at heq
        · rcases hwit with hgoal | ⟨ha, hRR⟩
          · exact absurd hgoal hg
          · rw [if_neg hg] at heq
            have hdeep : decide (0 < a) = true := decide_eq_true ha
            rw [hdeep, if_pos rfl] at heq
            cases hrec : recur nextIndex
                (left - ((amt + lot.amount) * price - (bv + lot.amount * lot.unit_price)) * (1 - tfv))
                (stack ++ [(⟨sym, amt + lot.amount,
                  (amt + lot.amount) * price - (bv + lot.amount * lot.unit_price),
                  ((amt + lot.amount) * price - (bv + lot.amount * lot.unit_price)) * (1 - tfv),
                  (amt + lot.amount) * price, lot.amount,
                  lot.amount * (price - lot.unit_price),
                  lot.amount * (price - lot.unit_price) * (1 - tfv),
                  lot.amount * price⟩ : TradeProposal)]) with
            | mk res st2 =>
              rw [hrec] at heq
              have hinf2 : (((stack ++ [(⟨sym, amt + lot.amount,
                  (amt + lot.amount) * price - (bv + lot.amount * lot.unit_price),
                  ((amt + lot.amount) * price - (bv + lot.amount * lot.unit_price)) * (1 - tfv),
                  (amt + lot.amount) * price, lot.amount,
                  lot.amount * (price - lot.unit_price),
                  lot.amount * (price - lot.unit_price) * (1 - tfv),
                  lot.amount * price⟩ : TradeProposal)]).length + leakG T a : ℕ) : ℚ) * B
                  < INFINITY := by
                rw [hlen2]
                refine lt_of_le_of_lt ?_ hINF
                refine mul_le_mul_of_nonneg_right ?_ hB
                exact_mod_cast (by omega : stack.length + 1 + leakG T a ≤ N + leakG T a)
              cases res with
              | none =>
                exact absurd (by rw [hrec])
                  (HrecC (left - ((amt + lot.amount) * price - (bv + lot.amount * lot.unit_price)) * (1 - tfv))
                    _ hstack2 hinf2 (by linarith [not_le.mp hg]) hRR)
              | some r =>
                simp only [] at heq
                have hr1 : r.1 < INFINITY := by
                  have h0 := (HrecB nextIndex
                    (left - ((amt + lot.amount) * price - (bv + lot.amount * lot.unit_price)) * (1 - tfv))
                    _ hstack2).2.2 r (by rw [hrec])
                  exact lt_of_le_of_lt h0 hinf2
                by_cases hlt : r.1 < best.1
                · rw [if_pos hlt] at heq
                  exact lt_of_le_of_lt
                    (lotLoop_done_le recur true price tfv sym nextIndex left rest
                      (bv + lot.amount * lot.unit_price) (amt + lot.amount)
                      (r.1, r.2) st2.dropLast v bs st heq) hr1
                · rw [if_neg hlt] at heq
                  exact lt_of_le_of_lt
                    (lotLoop_done_le recur true price tfv sym nextIndex left rest
                      (bv + lot.amount * lot.unit_price) (amt + lot.amount)
                      best st2.dropLast v bs st heq)
                    (lt_of_le_of_lt (not_lt.mp hlt) hr1)
      | succ m2 =>
        rw [cutAmount_cons, cutBuyValue_cons] at hgate hwit
        have e1 : bv + (lot.amount * lot.unit_price + cutBuyValue rest (m2 + 1))
            = bv + lot.amount * lot.unit_price + cutBuyValue rest (m2 + 1) := by ring
        have e2 : amt + (lot.amount + cutAmount rest (m2 + 1))
            = amt + lot.amount + cutAmount rest (m2 + 1) := by ring
        rw [e1, e2] at hgate hwit
        by_cases hm : (bv + lot.amount * lot.unit_price) / (amt + lot.amount) < price
        · rw [if_pos hm] at heq
          by_cases hg : left ≤ ((amt + lot.amount) * price - (bv + lot.amount * lot.unit_price)) * (1 - tfv)
          · rw [if_pos hg] at heq
            cases href : refine_solution (stack ++ [(⟨sym, amt + lot.amount,
                (amt + lot.amount) * price - (bv + lot.amount * lot.unit_price),
                ((amt + lot.amount) * price - (bv + lot.amount * lot.unit_price)) * (1 - tfv),
                (amt + lot.amount) * price, lot.amount,
                lot.amount * (price - lot.unit_price),
                lot.amount * (price - lot.unit_price) * (1 - tfv),
                lot.amount * price⟩ : TradeProposal)])
                (((amt + lot.amount) * price - (bv + lot.amount * lot.unit_price)) * (1 - tfv) - left) with
            | some refined => rw [href] at heq; simp at heq
            | none => rw [href] at heq; simp at heq
          · rw [if_neg hg] at heq
            by_cases ha : 0 < a
            · have hdeep : decide (0 < a) = true := decide_eq_true ha
              rw [if_pos hdeep] at heq
              cases hrec : recur nextIndex
                  (left - ((amt + lot.amount) * price - (bv + lot.amount * lot.unit_price)) * (1 - tfv))
                  (stack ++ [(⟨sym, amt + lot.amount,
                    (amt + lot.amount) * price - (bv + lot.amount * lot.unit_price),
                    ((amt + lot.amount) * price - (bv + lot.amount * lot.unit_price)) * (1 - tfv),
                    (amt + lot.amount) * price, lot.amount,
                    lot.amount * (price - lot.unit_price),
                    lot.amount * (price - lot.unit_price) * (1 - tfv),
                    lot.amount * price⟩ : TradeProposal)]) with
              | mk res st2 =>
                rw [hrec] at heq
                obtain ⟨hOK2, hlen3, _⟩ := HrecB nextIndex
                  (left - ((amt + lot.amount) * price - (bv + lot.amount * lot.unit_price)) * (1 - tfv))
                  _ hstack2
                rw [hrec] at hOK2 hlen3
                have hlen4 : st2.length ≤ stack.length + 1 + leakF T a := by
                  rw [hlen2] at hlen3
                  exact hlen3
                have hdropOK : ∀ p ∈ st2.dropLast, propVolOK B p :=
                  fun p hp => hOK2 p ((List.dropLast_sublist st2).subset hp)
                have hdl : st2.dropLast.length = st2.length - 1 := List.length_dropLast st2
                cases res with
                | none =>
                  simp only [] at heq
                  exact ih (m2 + 1) (bv + lot.amount * lot.unit_price) (amt + lot.amount)
                    best st2.dropLast hamts' hcap2 hdropOK (by omega) (by omega)
                    (by omega) hgate hwit v bs st heq
                | some r =>
                  simp only [] at heq
                  by_cases hlt : r.1 < best.1
                  · rw [if_pos hlt] at heq
                    exact ih (m2 + 1) (bv + lot.amount * lot.unit_price) (amt + lot.amount)
                      (r.1, r.2) st2.dropLast hamts' hcap2 hdropOK (by omega) (by omega)
                      (by omega) hgate hwit v bs st heq
                  · rw [if_neg hlt] at heq
                    exact ih (m2 + 1) (bv + lot.amount * lot.unit_price) (amt + lot.amount)
                      best st2.dropLast hamts' hcap2 hdropOK (by omega) (by omega)
                      (by omega) hgate hwit v bs st heq
            · have hdeep : decide (0 < a) = false := decide_eq_false ha
              have hne : ¬ (decide (0 < a) = true) := by simp [hdeep]
              rw [if_neg hne] at heq
              rw [List.dropLast_concat] at heq
              exact ih (m2 + 1) (bv + lot.amount * lot.unit_price) (amt + lot.amount)
                best stack hamts' hcap2 hstack (by omega) (by omega) (by omega)
                hgate hwit v bs st heq
        · rw [if_neg hm] at heq
          exact ih (m2 + 1) (bv + lot.amount * lot.unit_price) (amt + lot.amount)
            best stack hamts' hcap2 hstack (by omega) (by omega) (by omega)
            hgate hwit v bs st heq

/-- A sublist of a cons either skips the head or starts with it. -/
lemma sublist_map_cons_split {α β : Type} (f : α → β) (q : α) (sel' : List α)
    (e : β) (rest : List β) (h : ((q :: sel').map f).Sublist (e :: rest)) :
    ((q :: sel').map f).Sublist rest ∨ (f q = e ∧ (sel'.map f).Sublist rest) := by
  simp only [List.map_cons] at h
  cases h with
  | cons a h => exact Or.inl (by simp only [List.map_cons]; exact h)
  | cons₂ a h => exact Or.inr ⟨rfl, h⟩

/-- Completeness of the symbol loop: if a combination of at most `a + 1`
trades over the remaining symbols reaches `left`, the loop cannot return
`none`. -/
lemma symLoop_complete (B : ℚ) (T : ℕ) (a : ℕ) (N : ℕ)
    (recur : ℕ → ℚ → List TradeProposal → Option (ℚ × List TradeProposal) × List TradeProposal)
    (prices tf : String → ℚ) (left : ℚ)
    (hhs : List (String × List Trade))
    (hB : 0 ≤ B)
    (hINF : ((N + leakG T a : ℕ) : ℚ) * B < INFINITY)
    (HrecB : ∀ i l st, (∀ p ∈ st, propVolOK B p) →
      (∀ p ∈ (recur i l st).2, propVolOK B p) ∧
      (recur i l st).2.length ≤ st.length + leakF T a ∧
      (∀ r, (recur i l st).1 = some r →
        r.1 ≤ ((st.length + leakG T a : ℕ) : ℚ) * B))
    (HrecC : ∀ i l st, (∀ p ∈ st, propVolOK B p) →
      ((st.length + leakG T a : ℕ) : ℚ) * B < INFINITY →
      0 < l → reaches prices tf (hhs.drop i) a l → (recur i l st).1 ≠ none) :
    ∀ (hs : List (String × List Trade)) (symIndex : ℕ) (best : ℚ × List TradeProposal)
      (stack : List TradeProposal),
      hs = hhs.drop symIndex →
      (∀ e ∈ hs, (∀ t ∈ e.2, 0 ≤ t.amount) ∧ 0 ≤ prices e.1 ∧
        lotSum e.2 * prices e.1 ≤ B) →
      (∀ p ∈ stack, propVolOK B p) →
      stack.length + totalLots hs * leakF T a + 1 ≤ N →
      (best.1 = INFINITY ∨ best.1 ≤ ((N + leakG T a : ℕ) : ℚ) * B) →
      0 < left →
      reaches prices tf hs (a + 1) left →
      (symLoop recur (decide (0 < a)) prices tf left hs symIndex best stack).1 ≠ none := by
  intro hs
  induction hs with
  | nil =>
    intro symIndex best stack _ _ _ _ _ hleft hreach
    obtain ⟨sel, ⟨hsub, _⟩, _, hsum⟩ := hreach
    cases sel with
    | nil =>
      simp [comboTaxable] at hsum
      linarith
    | cons q sel' =>
      have h0 := List.sublist_nil.mp hsub
      simp at h0
  | cons e rest ih =>
    intro symIndex best stack hdrop hents hstack hN hbest hleft hreach
    have hdrop2 : rest = hhs.drop (symIndex + 1) := by
      rw [← List.tail_drop, ← hdrop, List.tail_cons]
    obtain ⟨sel, ⟨hsub, hprops⟩, hlen, hsum⟩ := hreach
    cases sel with
    | nil =>
      simp [comboTaxable] at hsum
      linarith
    | cons q sel' =>
      obtain ⟨⟨sym, lots⟩, n⟩ := q
      rcases sublist_map_cons_split _ ((sym, lots), n) sel' e rest hsub with
        hskip | ⟨hq1, hsub'⟩
      · -- the combination does not use the first symbol
        obtain ⟨esym, elots⟩ := e
        have hent := hents (esym, elots) (List.mem_cons_self _ _)
        have htot : totalLots ((esym, elots) :: rest) = elots.length + totalLots rest := by
          simp [totalLots]
        rw [htot, Nat.add_mul] at hN
        rw [symLoop]
        cases hl : lotLoop recur (decide (0 < a)) (prices esym) (tf esym) esym
            (symIndex + 1) left elots 0 0 best stack with
        | early v0 s0 st0 =>
          simp only []
          simp
        | done bv0 bs0 st0 =>
          simp only []
          obtain ⟨_, hllD⟩ := lotLoop_bound B T a N recur (decide (0 < a)) (prices esym)
            (tf esym) esym (symIndex + 1) left hB hent.2.1 HrecB elots 0 0 best stack
            hent.1 (by simpa using hent.2.2) hstack (by omega) hbest
          obtain ⟨o1, o2, o3⟩ := hllD bv0 bs0 st0 hl
          exact ih (symIndex + 1) (bv0, bs0) st0 hdrop2
            (fun e2 he2 => hents e2 (List.mem_cons_of_mem _ he2)) o1 (by omega) o3 hleft
            ⟨((sym, lots), n) :: sel', ⟨hskip, hprops⟩, hlen, hsum⟩
      · -- the combination sells a prefix of the first symbol
        simp only [] at hq1
        subst hq1
        have hent := hents (sym, lots) (List.mem_cons_self _ _)
        have htot : totalLots ((sym, lots) :: rest) = lots.length + totalLots rest := by
          simp [totalLots]
        rw [htot, Nat.add_mul] at hN
        obtain ⟨hn0, hnle, hgate⟩ := hprops ((sym, lots), n) (List.mem_cons_self _ _)
        have ht : ((0 + cutAmount lots n) * prices sym - (0 + cutBuyValue lots n)) * (1 - tf sym)
            = cutTaxable lots (prices sym) (tf sym) n := by
          simp [cutTaxable, cutVolume]
        have hct : comboTaxable prices tf (((sym, lots), n) :: sel')
            = cutTaxable lots (prices sym) (tf sym) n + comboTaxable prices tf sel' := by
          simp [comboTaxable]
        rw [hct] at hsum
        simp only [List.length_cons] at hlen
        have hwit : left ≤ ((0 + cutAmount lots n) * prices sym - (0 + cutBuyValue lots n)) * (1 - tf sym) ∨
            (0 < a ∧ reaches prices tf (hhs.drop (symIndex + 1)) a
              (left - ((0 + cutAmount lots n) * prices sym - (0 + cutBuyValue lots n)) * (1 - tf sym))) := by
          by_cases hgl : left ≤ cutTaxable lots (prices sym) (tf sym) n
          · exact Or.inl (by rw [ht]; exact hgl)
          · have hne : sel' ≠ [] := by
              intro h0
              rw [h0] at hsum
              simp [comboTaxable] at hsum
              exact hgl hsum
            have hpos : 0 < sel'.length := List.length_pos.mpr hne
            refine Or.inr ⟨by omega, ?_⟩
            rw [ht]
            refine ⟨sel', ⟨by rw [← hdrop2]; exact hsub',
              fun q2 hq2 => hprops q2 (List.mem_cons_of_mem _ hq2)⟩, by omega, by linarith⟩
        rw [symLoop]
        cases hl : lotLoop recur (decide (0 < a)) (prices sym) (tf sym) sym
            (symIndex + 1) left lots 0 0 best stack with
        | early v0 s0 st0 =>
          simp only []
          simp
        | done bv0 bs0 st0 =>
          simp only []
          have hv0 : bv0 < INFINITY := lotLoop_complete B T a N recur (prices sym) (tf sym)
            sym (symIndex + 1) left
            (fun l => reaches prices tf (hhs.drop (symIndex + 1)) a l)
            hB hent.2.1 hINF HrecB
            (fun l st h1 h2 h3 h4 => HrecC (symIndex + 1) l st h1 h2 h3 h4)
            lots n 0 0 best stack hent.1 (by simpa using hent.2.2) hstack (by omega)
            hn0 hnle (by simpa using hgate) hwit bv0 bs0 st0 hl
          exact symLoop_some_ne_none recur (decide (0 < a)) prices tf left rest
            (symIndex + 1) (bv0, bs0) st0 hv0

/-- Completeness of `_backtrack`: with sane data, a sane stack and all
relevant volumes below the sentinel, a call whose remaining symbols admit a
reaching combination of at most `allowed_trades` trades never returns
`None`. -/
lemma backtrack_complete (ctx : SearchCtx) (B : ℚ) (hB : 0 ≤ B)
    (HD : ∀ e ∈ ctx.holdings, (∀ t ∈ e.2, 0 ≤ t.amount) ∧ 0 ≤ ctx.prices e.1 ∧
      lotSum e.2 * ctx.prices e.1 ≤ B) :
    ∀ (a idx : ℕ) (left : ℚ) (stack : List TradeProposal),
      (∀ p ∈ stack, propVolOK B p) →
      ((stack.length + leakG (totalLots ctx.holdings) a : ℕ) : ℚ) * B < INFINITY →
      0 < left →
      reaches ctx.prices ctx.tf (ctx.holdings.drop idx) a left →
      (backtrack ctx a idx left stack).1 ≠ none := by
  intro a
  induction a with
  | zero =>
    intro idx left stack _ _ hleft hreach
    obtain ⟨sel, _, hlen, hsum⟩ := hreach
    have hsel : sel = [] := List.length_eq_zero.mp (Nat.le_zero.mp hlen)
    rw [hsel] at hsum
    simp [comboTaxable] at hsum
    linarith
  | succ a ih =>
    intro idx left stack hstack hinf hleft hreach
    rw [backtrack]
    by_cases hle : ctx.holdings.length < idx
    · have hdrop : ctx.holdings.drop idx = [] := List.drop_eq_nil_of_le (le_of_lt hle)
      rw [hdrop] at hreach
      obtain ⟨sel, ⟨hsub, _⟩, _, hsum⟩ := hreach
      cases sel with
      | nil =>
        simp [comboTaxable] at hsum
        linarith
      | cons q sel' =>
        have h0 := List.sublist_nil.mp hsub
        simp at h0
    · rw [if_neg hle]
      have hdle := totalLots_drop_le ctx.holdings idx
      have hN : stack.length
          + totalLots (ctx.holdings.drop idx) * leakF (totalLots ctx.holdings) a + 1
          + leakG (totalLots ctx.holdings) a
          ≤ stack.length + leakG (totalLots ctx.holdings) (a + 1) := by
        have hmul : totalLots (ctx.holdings.drop idx) * leakF (totalLots ctx.holdings) a
            ≤ totalLots ctx.holdings * leakF (totalLots ctx.holdings) a :=
          Nat.mul_le_mul_right _ hdle
        rw [leakG, leakF]
        omega
      have hinf2 : ((stack.length
          + totalLots (ctx.holdings.drop idx) * leakF (totalLots ctx.holdings) a + 1
          + leakG (totalLots ctx.holdings) a : ℕ) : ℚ) * B < INFINITY := by
        refine lt_of_le_of_lt ?_ hinf
        exact mul_le_mul_of_nonneg_right (by exact_mod_cast hN) hB
      exact symLoop_complete B (totalLots ctx.holdings) a
        (stack.length
          + totalLots (ctx.holdings.drop idx) * leakF (totalLots ctx.holdings) a + 1)
        (fun i l s => backtrack ctx a i l s) ctx.prices ctx.tf left ctx.holdings hB hinf2
        (fun i l st hst => backtrack_bound ctx B hB HD a i l st hst)
        (fun i l st h1 h2 h3 h4 => ih i l st h1 h2 h3 h4)
        (ctx.holdings.drop idx) idx (INFINITY, []) stack rfl
        (fun e he => HD e (List.mem_of_mem_drop he)) hstack le_rfl (Or.inl rfl)
        hleft hreach

/-- C1 (amended): the fewest-trades half of the objective, in the semantic
sense.  Under the data model's sanity conditions (positive-or-zero lot
amounts, nonnegative prices) and provided the total portfolio value is small
enough that no candidate solution's volume can reach the `INFINITY = 10⁹`
sentinel, a program answer at trade count `k` means no valid combination of
fewer than `k` trades — distinct securities, each selling a FIFO prefix that
passes the search's profitability gate — reaches the target taxable profit.
(Without the volume cap this fails: the sentinel comparison silently
discards found solutions, see the counterexample.  The volume half of the
claim fails outright.) -/
theorem C1_amended_no_smaller_combination (ctx : SearchCtx) (desired : ℚ)
    (k : ℕ) (v : ℚ) (sol : List TradeProposal)
    (HD : ∀ e ∈ ctx.holdings, (∀ t ∈ e.2, 0 ≤ t.amount) ∧ 0 ≤ ctx.prices e.1)
    (Hcap : ((leakG (totalLots ctx.holdings) MAX_TRADES : ℕ) : ℚ) *
      capVol ctx.prices ctx.holdings < INFINITY)
    (hdes : 0 < desired)
    (h : find_minimal_solution ctx desired = some (k, v, sol)) :
    ∀ j, j < k → ¬ reaches ctx.prices ctx.tf ctx.holdings j desired := by
  intro j hjk hreach
  have hB : 0 ≤ capVol ctx.prices ctx.holdings := capVol_nonneg _ _ HD
  have HD' : ∀ e ∈ ctx.holdings, (∀ t ∈ e.2, 0 ≤ t.amount) ∧ 0 ≤ ctx.prices e.1 ∧
      lotSum e.2 * ctx.prices e.1 ≤ capVol ctx.prices ctx.holdings :=
    fun e he => ⟨(HD e he).1, (HD e he).2, capVol_entry_le _ _ HD e he⟩
  rw [find_minimal_solution] at h
  rcases Nat.eq_zero_or_pos j with h0 | hj1
  · subst h0
    obtain ⟨sel, _, hlen, hsum⟩ := hreach
    have hsel : sel = [] := List.length_eq_zero.mp (Nat.le_zero.mp hlen)
    rw [hsel] at hsum
    simp [comboTaxable] at hsum
    linarith
  · have hk3 : k ≤ MAX_TRADES := by
      have := searchFrom_ub ctx desired MAX_TRADES 1 k v sol h
      omega
    have hnone := searchFrom_none_below ctx desired MAX_TRADES 1 k v sol h j hj1 hjk
    have hG : leakG (totalLots ctx.holdings) j ≤ leakG (totalLots ctx.holdings) MAX_TRADES :=
      leakG_mono _ j MAX_TRADES (by omega)
    refine backtrack_complete ctx (capVol ctx.prices ctx.holdings) hB HD' j 0 desired []
      (fun p hp => absurd hp (List.not_mem_nil p)) ?_ hdes ?_ hnone
    · refine lt_of_le_of_lt ?_ Hcap
      refine mul_le_mul_of_nonneg_right ?_ hB
      exact_mod_cast (by simpa using hG)
    · rw [List.drop_zero]
      exact hreach

/-- Witness for C1 (amended): on `ctxLeak` (target 105) the program answers
at trade count 2, and indeed no single trade — no profitable FIFO prefix of
any one security — reaches a taxable profit of 105. -/
theorem C1_amended_combination_witness :
    ¬ reaches ctxLeak.prices ctxLeak.tf ctxLeak.holdings 1 105 :=
  C1_amended_no_smaller_combination ctxLeak 105 2 9830
    [⟨"A", 1, 5, 5, 10, 1, 5, 5, 10⟩,
     ⟨"A", 2, 7, 7, 20, 1, 2, 2, 10⟩,
     ⟨"B", 98, 98, 98, 9800, 98, 98, 98, 9800⟩]
    (by
      intro e he
      simp only [ctxLeak, List.mem_cons, List.not_mem_nil, or_false] at he
      rcases he with he | he
      · subst he
        refine ⟨?_, by norm_num [ctxLeak]⟩
        intro t ht
        simp only [List.mem_cons, List.not_mem_nil, or_false] at ht
        rcases ht with ht | ht <;> subst ht <;> norm_num
      · subst he
        refine ⟨?_, by norm_num [ctxLeak, show (("B":String) = "A") = False by simp]⟩
        intro t ht
        simp only [List.mem_cons, List.not_mem_nil, or_false] at ht
        subst ht
        norm_num)
    (by
      have h1 : leakG (totalLots ctxLeak.holdings) MAX_TRADES = 18 := by decide
      have h2 : capVol ctxLeak.prices ctxLeak.holdings = 10020 := by
        norm_num [capVol, lotSum, ctxLeak, show (("B":String) = "A") = False by simp]
      rw [h1, h2]
      norm_num [INFINITY])
    (by norm_num)
    (by
      norm_num [find_minimal_solution, searchFrom, backtrack, symLoop,
        lotLoop, refine_solution, refineScan, refineScanGo, applyAt, updateProposal,
        INFINITY, MAX_TRADES, ctxLeak,
        List.dropLast, List.sum_cons, List.sum_nil,
        show (("B":String) = "A") = False by simp])
    1 (by norm_num)
